import Mathlib

/-!
# Pachyderm block service and job-shim: a verification development

Shallow embedding of

* `src/server/pfs/server/obj_block_api_server.go`
  (`PutBlock`, `GetBlock`, `DeleteBlock`, the cache getter of `newObjBlockAPIServer`),
* `src/server/cmd/job-shim/main.go` (`do`),

together with the statements about them that were checked.

Conventions.  Byte strings are lists of naturals.  Object-store paths are lists of
path components.  Go errors are strings; their classification (retryable, not-exist)
belongs to the object client.  Unsigned 64-bit arithmetic is arithmetic on naturals
reduced modulo `2 ^ 64`.  Stateful code is written in state-passing style; every call
made to the object client is also appended to a call log, so that statements about
"how often" and "in which order" the client is used can be made.
-/

namespace Pachyderm

/-! ## Basic data -/

abbrev Bytes := List Nat

abbrev Err := String

abbrev Path := List String

/-- The modulus of Go's `uint64`. -/
def u64 : Nat := 2 ^ 64

/-- Client `pfs.Delimiter`. -/
inductive Delimiter where
  | NONE
  | JSON
  | LINE
deriving DecidableEq, Repr

/-- Client `pfs.BlockRef`: a block hash and the byte range `[lower, upper)`. -/
structure BlockRef where
  hash : String
  lower : Nat
  upper : Nat
deriving DecidableEq, Repr

/-! ## GetBlock: slicing -/

/-- Go's slice expression `data[lo:hi]` on a slice whose capacity equals its length:
it panics (`none`) unless `lo ≤ hi ≤ len(data)`. -/
def goSlice (data : Bytes) (lo hi : Nat) : Option Bytes :=
  if lo ≤ hi ∧ hi ≤ data.length then some ((data.drop lo).take (hi - lo)) else none

/-- The slicing of `GetBlock` (lines 212-218), on `uint64` operands `offset`, `size`.
`none` is a run-time panic of a slice expression. -/
def sliceBlock (data : Bytes) (offset size : Nat) : Option Bytes :=
  if size ≠ 0 ∧ (size + offset) % u64 < data.length then
    goSlice data offset ((offset + size) % u64)
  else if offset < data.length then
    goSlice data offset data.length
  else
    some []

/-- The slicing rule in the words of the specification (section 4.6), on unbounded
naturals: `bytes[offset:offset+size]` if `size ≠ 0` and `offset + size < len`,
else `bytes[offset:]` if `offset < len`, else empty. -/
def specSlice (bytes : Bytes) (offset size : Nat) : Bytes :=
  if size ≠ 0 ∧ offset + size < bytes.length then (bytes.drop offset).take size
  else if offset < bytes.length then bytes.drop offset
  else []

/-! ## Object client and retry driver -/

/-- One call made to the object client (`obj.Client`) or to a handle it returned. -/
inductive Call where
  | Exists (path : Path)
  | Writer (path : Path)
  | Write (path : Path) (data : Bytes)
  | Close (path : Path)
  | Reader (path : Path)
  | ReadAll (path : Path)
  | CloseReader (path : Path)
  | Delete (path : Path)
deriving DecidableEq, Repr

/-- The capability set `obj.Client` used by the block server, over a store state `σ`.
A writer or reader handle is identified by the path it was opened on.  `none` in a
result is Go's `nil` error. -/
structure Client (σ : Type) where
  Exists : Path → σ → Bool
  Writer : Path → σ → Option Err × σ
  Write : Path → Bytes → σ → Option Err × σ
  Close : Path → σ → Option Err × σ
  Reader : Path → σ → Option Err × σ
  ReadAll : Path → σ → Except Err Bytes × σ
  CloseReader : Path → σ → Option Err × σ
  Delete : Path → σ → Option Err × σ
  IsRetryable : Err → Bool
  IsNotExist : Err → Bool

/-- Library `backoff.RetryNotify(operation, b, notify)`: run `operation`; on `nil` stop
with `nil`; on an error ask the back-off for the next delay and stop with that error
when the back-off says `Stop`, otherwise notify, sleep and run again.  The back-off is
represented by the number of retries it grants before it says `Stop` (its max-elapsed
time); the state `τ` is whatever the operation closes over. -/
def retryNotify {τ : Type} (operation : τ → Option Err × τ) : Nat → τ → Option Err × τ
  | 0, t => operation t
  | n + 1, t =>
    match operation t with
    | (none, t') => (none, t')
    | (some _, t') => retryNotify operation n t'

/-- Parameters of the block server that the source takes from elsewhere. -/
structure Config where
  /-- Root directory of the local block store (`dir`). -/
  dir : String
  /-- Length of the shard prefix of a hash. -/
  shardLen : Nat
  /-- The design constant `blockSize`. -/
  blockSize : Nat
  /-- Retries granted by `obj.NewExponentialBackOffConfig()` before it stops. -/
  retries : Nat
  /-- The block hash algorithm. -/
  hash : Bytes → String
  /-- The streaming JSON decoder run over the unread bytes: the number of bytes up to the
  end of the next top-level value (`0` if there is no complete value) or a syntax error. -/
  jsonEnd : Bytes → Except Err Nat

/-- Modelled from the spec: `localBlockAPIServer.blockPath` is not among the sources;
section 4.3 gives `blockPath(hash) = root / "block" / shard(hash) / hash` where `shard`
is a short prefix of the hash. -/
def blockPath (cfg : Config) (hash : String) : Path :=
  [cfg.dir, "block", hash.take cfg.shardLen, hash]

/-- What a persistence task of `PutBlock` closes over: the store, the call log and the
task's named result `retErr`. -/
structure Task (σ : Type) where
  store : σ
  calls : List Call
  retErr : Option Err

/-- The operation handed to `RetryNotify` inside a persistence task of `PutBlock`
(lines 161-186): one attempt to persist `data` at `path`. -/
def putAttempt {σ : Type} (c : Client σ) (path : Path) (data : Bytes) (t : Task σ) :
    Option Err × Task σ :=
  if c.Exists path t.store then
    (none, { t with calls := t.calls ++ [Call.Exists path] })
  else
    match c.Writer path t.store with
    | (some e, s1) =>
      (none, { store := s1, calls := t.calls ++ [Call.Exists path, Call.Writer path],
               retErr := some e })
    | (none, s1) =>
      match c.Write path data s1 with
      | (some e, s2) =>
        (none, { store := s2,
                 calls := t.calls ++ [Call.Exists path, Call.Writer path, Call.Write path data],
                 retErr := some e })
      | (none, s2) =>
        match c.Close path s2 with
        | (some e, s3) =>
          if c.IsRetryable e then
            (some e, { store := s3,
                       calls := t.calls ++ [Call.Exists path, Call.Writer path,
                         Call.Write path data, Call.Close path],
                       retErr := t.retErr })
          else
            (none, { store := s3,
                     calls := t.calls ++ [Call.Exists path, Call.Writer path,
                       Call.Write path data, Call.Close path],
                     retErr := some e })
        | (none, s3) =>
          (none, { store := s3,
                   calls := t.calls ++ [Call.Exists path, Call.Writer path,
                     Call.Write path data, Call.Close path],
                   retErr := t.retErr })

/-- The function given to `eg.Go` in `PutBlock` (lines 160-193): the result of
`RetryNotify` is dropped and the task returns its `retErr`. -/
def persist {σ : Type} (c : Client σ) (cfg : Config) (hash : String) (data : Bytes)
    (store : σ) : Task σ :=
  (retryNotify (putAttempt c (blockPath cfg hash) data) cfg.retries
    { store := store, calls := [], retErr := none }).2

/-! ## DeleteBlock -/

/-- The operation handed to `RetryNotify` in `DeleteBlock` (lines 225-230). -/
def deleteAttempt {σ : Type} (c : Client σ) (path : Path) (t : σ × List Call) :
    Option Err × (σ × List Call) :=
  match c.Delete path t.1 with
  | (some e, s1) =>
    if !c.IsNotExist e then (some e, (s1, t.2 ++ [Call.Delete path]))
    else (none, (s1, t.2 ++ [Call.Delete path]))
  | (none, s1) => (none, (s1, t.2 ++ [Call.Delete path]))

/-- Result of `DeleteBlock`: the pair `(response, retErr)` it returns, the store and the
calls made. -/
structure DeleteOutcome (σ : Type) where
  /-- `none` is the `nil` error returned together with `EmptyInstance`. -/
  retErr : Option Err
  store : σ
  calls : List Call

/-- `objBlockAPIServer.DeleteBlock` (lines 222-237): the result of `RetryNotify` is
dropped and `(EmptyInstance, nil)` is returned. -/
def DeleteBlock {σ : Type} (c : Client σ) (cfg : Config) (hash : String) (store : σ) :
    DeleteOutcome σ :=
  let r := retryNotify (deleteAttempt c (blockPath cfg hash)) cfg.retries (store, [])
  { retErr := none, store := r.2.1, calls := r.2.2 }

/-! ## PutBlock -/

/-- Length of the first line of `rest`, its newline (byte 10) included; the length of
`rest` when it holds no newline. -/
def lineLength : Bytes → Nat
  | [] => 0
  | b :: bs => if b = 10 then 1 else lineLength bs + 1

/-- Modelled from the spec: the length of the next record at the head of the unread bytes
`rest`, in the units that section 4.5 accumulates.  `NONE`: one byte.  `LINE`: one line,
which is never split.  `JSON`: one top-level value, as the streaming decoder reports
it; a decoder that finds no complete value is an error. -/
def nextRecord (cfg : Config) (d : Delimiter) (rest : Bytes) : Except Err Nat :=
  match d with
  | Delimiter.NONE => Except.ok 1
  | Delimiter.LINE => Except.ok (lineLength rest)
  | Delimiter.JSON =>
    match cfg.jsonEnd rest with
    | Except.ok k =>
      if 0 < k ∧ k ≤ rest.length then Except.ok k
      else Except.error "unexpected end of JSON input"
    | Except.error e => Except.error e

/-- State of the buffered reader over the request stream (`putBlockReader` wrapped in a
`bufio.Reader`): the payload of the first frame or the bytes left unread by the last
read, the frames not yet looked at, and the stream offset of the first unread byte. -/
structure ReaderState where
  buf : Bytes
  frames : List Bytes
  offset : Nat
deriving DecidableEq, Repr

/-- Bytes the reader has not handed out yet. -/
def ReaderState.pending (r : ReaderState) : Bytes := r.buf ++ r.frames.flatten

/-- Modelled from the spec: the accumulation loop of `readBlock`, which is not among the
sources.  Section 4.5: the running buffer `buf` accumulates whole records, read one at
a time from the buffered reader and the decoder that `PutBlock` hands over (lines
148-155): bytes for `NONE`, lines for `LINE` (a line is never split), top-level values
for `JSON`.  Once the running buffer is at least `blockSize` long it is emitted: it
ends with the last complete record, and the unread rest of the stream carries over to
the next block.  At the end of the stream the buffered bytes are the final block, which
may be short.  At most `fuel` records are read; the number of unread bytes is enough.
Result: the emitted bytes and the bytes still unread. -/
def accumulate (cfg : Config) (d : Delimiter) : Nat → Bytes → Bytes → Except Err (Bytes × Bytes)
  | 0, buf, rest => Except.ok (buf, rest)
  | fuel + 1, buf, rest =>
    if cfg.blockSize ≤ buf.length ∨ rest = [] then Except.ok (buf, rest)
    else
      match nextRecord cfg d rest with
      | Except.error e => Except.error e
      | Except.ok k => accumulate cfg d fuel (buf ++ rest.take k) (rest.drop k)

/-- Modelled from the spec: `readBlock` is not among the sources.  Section 4.5: for each
emitted segment compute the block hash and record the `BlockRef` with the segment's
range `[lower, upper)` in the stream. -/
def readBlock (cfg : Config) (d : Delimiter) (r : ReaderState) :
    Except Err (BlockRef × Bytes × ReaderState) :=
  match accumulate cfg d r.pending.length [] r.pending with
  | Except.error e => Except.error e
  | Except.ok (data, rest) =>
    Except.ok ({ hash := cfg.hash data, lower := r.offset, upper := r.offset + data.length },
      data, { buf := rest, frames := [], offset := r.offset + data.length })

/-- How a `PutBlock` call ends. -/
inductive PutResult where
  /-- `SendAndClose(result)`: the response lists these block references. -/
  | ok (refs : List BlockRef)
  /-- The call returns this error. -/
  | err (e : Err)
  /-- The loop has not ended within the given number of rounds. -/
  | running
deriving DecidableEq, Repr

/-- Everything observable of a `PutBlock` call. -/
structure PutOutcome (σ : Type) where
  result : PutResult
  /-- The references appended to `result.BlockRef`, with the bytes of each block. -/
  blocks : List (BlockRef × Bytes)
  /-- Stream bytes that were left unread (buffered or not yet received). -/
  unread : Bytes
  store : σ
  calls : List Call

/-- Loop state of `PutBlock`. -/
structure PutState (σ : Type) where
  reader : ReaderState
  blocks : List (BlockRef × Bytes)
  store : σ
  calls : List Call
  /-- Errors returned by the persistence tasks so far, oldest first. -/
  errs : List Err

/-- The `for` loop of `PutBlock` (lines 154-197) followed by `eg.Wait()` and
`SendAndClose` (lines 198-201), for at most `fuel` rounds.  The persistence tasks of the
error group are run one after the other, each when it is started.  Stream offsets are
taken to fit in `uint64`, so `Upper - Lower` does not wrap. -/
def putLoop {σ : Type} (c : Client σ) (cfg : Config) (d : Delimiter) :
    Nat → PutState σ → PutOutcome σ
  | 0, st =>
    { result := PutResult.running, blocks := st.blocks, unread := st.reader.pending,
      store := st.store, calls := st.calls }
  | fuel + 1, st =>
    match readBlock cfg d st.reader with
    | Except.error e =>
      { result := PutResult.err e, blocks := st.blocks, unread := st.reader.pending,
        store := st.store, calls := st.calls }
    | Except.ok (blockRef, data, reader) =>
      let t := persist c cfg blockRef.hash data st.store
      let st1 : PutState σ :=
        { reader := reader, blocks := st.blocks ++ [(blockRef, data)], store := t.store,
          calls := st.calls ++ t.calls, errs := st.errs ++ t.retErr.toList }
      if blockRef.upper - blockRef.lower < cfg.blockSize then
        match st1.errs with
        | e :: _ =>
          { result := PutResult.err e, blocks := st1.blocks, unread := reader.pending,
            store := st1.store, calls := st1.calls }
        | [] =>
          { result := PutResult.ok (st1.blocks.map Prod.fst), blocks := st1.blocks,
            unread := reader.pending, store := st1.store, calls := st1.calls }
      else putLoop c cfg d fuel st1

/-- The loop state when the loop is entered: the reader holds the payload of the first
frame (lines 148-151), nothing is emitted yet. -/
def PutState.start {σ : Type} (f : Bytes) (fs : List Bytes) (store : σ) : PutState σ :=
  { reader := { buf := f, frames := fs, offset := 0 }, blocks := [], store := store,
    calls := [], errs := [] }

/-- `objBlockAPIServer.PutBlock` (lines 136-202) on a request stream that delivers
`frames` and then ends, the first frame carrying the delimiter `d`.  An empty stream is
`io.EOF` at the first `Recv`.  The loop is given one round per stream byte and two more. -/
def PutBlock {σ : Type} (c : Client σ) (cfg : Config) (d : Delimiter) (frames : List Bytes)
    (store : σ) : PutOutcome σ :=
  match frames with
  | [] => { result := PutResult.ok [], blocks := [], unread := [], store := store, calls := [] }
  | f :: fs => putLoop c cfg d ((f :: fs).flatten.length + 2) (PutState.start f fs store)

/-! ## The block cache and GetBlock -/

/-- What the getter of the block cache closes over. -/
structure Fill (σ : Type) where
  store : σ
  calls : List Call
  /-- The variable `err` of the getter, assigned by every attempt to open the reader. -/
  err : Option Err

/-- The operation handed to `RetryNotify` in the getter (lines 47-53). -/
def readerAttempt {σ : Type} (c : Client σ) (path : Path) (t : Fill σ) :
    Option Err × Fill σ :=
  match c.Reader path t.store with
  | (some e, s1) =>
    if c.IsRetryable e then
      (some e, { store := s1, calls := t.calls ++ [Call.Reader path], err := some e })
    else
      (none, { store := s1, calls := t.calls ++ [Call.Reader path], err := some e })
  | (none, s1) => (none, { store := s1, calls := t.calls ++ [Call.Reader path], err := none })

/-- The getter installed in `newObjBlockAPIServer` (lines 44-72): open a reader on the
block path of `key` under `RetryNotify`, read it to the end and close it. -/
def getter {σ : Type} (c : Client σ) (cfg : Config) (key : String) (store : σ) :
    Except Err Bytes × σ × List Call :=
  let path := blockPath cfg key
  let t := (retryNotify (readerAttempt c path) cfg.retries
    { store := store, calls := [], err := none }).2
  match t.err with
  | some e => (Except.error e, t.store, t.calls)
  | none =>
    match c.ReadAll path t.store with
    | (Except.error e, s1) =>
      let s2 := (c.CloseReader path s1).2
      (Except.error e, s2, t.calls ++ [Call.ReadAll path, Call.CloseReader path])
    | (Except.ok block, s1) =>
      match c.CloseReader path s1 with
      | (some e, s2) =>
        (Except.error e, s2, t.calls ++ [Call.ReadAll path, Call.CloseReader path])
      | (none, s2) =>
        (Except.ok block, s2, t.calls ++ [Call.ReadAll path, Call.CloseReader path])

/-- Contents of the in-memory block cache: block bytes by key. -/
abbrev Cache := List (String × Bytes)

/-- Library `groupcache.Group.Get`: a cached value is served as it is; a miss runs the
getter and, when the getter succeeds, keeps the value. -/
def cacheGet {σ : Type} (c : Client σ) (cfg : Config) (key : String) (cache : Cache)
    (store : σ) : Except Err Bytes × Cache × σ × List Call :=
  match cache.lookup key with
  | some block => (Except.ok block, cache, store, [])
  | none =>
    match getter c cfg key store with
    | (Except.ok block, s1, calls) => (Except.ok block, (key, block) :: cache, s1, calls)
    | (Except.error e, s1, calls) => (Except.error e, cache, s1, calls)

/-- How a `GetBlock` call ends. -/
inductive GetResult where
  /-- These frames were handed to `Send`, and `Send` was the last thing done. -/
  | sent (frames : List Bytes)
  /-- The call returns this error without sending. -/
  | err (e : Err)
  /-- A slice expression panicked. -/
  | panicked
deriving DecidableEq, Repr

/-- Everything observable of a `GetBlock` call. -/
structure GetOutcome (σ : Type) where
  result : GetResult
  cache : Cache
  store : σ
  calls : List Call

/-- `objBlockAPIServer.GetBlock` (lines 204-220) for the request
`{Block.Hash = hash, OffsetBytes = offset, SizeBytes = size}`. -/
def GetBlock {σ : Type} (c : Client σ) (cfg : Config) (hash : String) (offset size : Nat)
    (cache : Cache) (store : σ) : GetOutcome σ :=
  match cacheGet c cfg hash cache store with
  | (Except.error e, cache1, s1, calls) =>
    { result := GetResult.err e, cache := cache1, store := s1, calls := calls }
  | (Except.ok data, cache1, s1, calls) =>
    match sliceBlock data offset size with
    | none => { result := GetResult.panicked, cache := cache1, store := s1, calls := calls }
    | some value =>
      { result := GetResult.sent [value], cache := cache1, store := s1, calls := calls }

/-! ## An object store in memory -/

/-- An object store held in memory, with scripted faults: each list holds the errors
that the next calls of that kind will fail with, one per call. -/
structure MemStore where
  /-- Stored objects; the first entry for a path is the current one. -/
  objs : List (Path × Bytes)
  /-- Open writers with the bytes written so far. -/
  pending : List (Path × Bytes)
  writerFaults : List Err
  writeFaults : List Err
  closeFaults : List Err
  readerFaults : List Err
  deleteFaults : List Err
deriving DecidableEq, Repr

/-- No fault is scripted. -/
def MemStore.faultFree (s : MemStore) : Prop :=
  s.writerFaults = [] ∧ s.writeFaults = [] ∧ s.closeFaults = [] ∧ s.readerFaults = [] ∧
    s.deleteFaults = []

/-- The client of the store in memory.  An error is retryable when it is `"transient"`
and not-exist when it is `"not exist"`. -/
def memClient : Client MemStore where
  Exists := fun p s => (s.objs.lookup p).isSome
  Writer := fun p s =>
    match s.writerFaults with
    | e :: es => (some e, { s with writerFaults := es })
    | [] => (none, { s with pending := (p, []) :: s.pending })
  Write := fun p data s =>
    match s.writeFaults with
    | e :: es => (some e, { s with writeFaults := es })
    | [] => (none, { s with pending := (p, (s.pending.lookup p).getD [] ++ data) :: s.pending })
  Close := fun p s =>
    match s.closeFaults with
    | e :: es => (some e, { s with closeFaults := es })
    | [] => (none, { s with objs := (p, (s.pending.lookup p).getD []) :: s.objs })
  Reader := fun p s =>
    match s.readerFaults with
    | e :: es => (some e, { s with readerFaults := es })
    | [] => if (s.objs.lookup p).isSome then (none, s) else (some "not exist", s)
  ReadAll := fun p s => (Except.ok ((s.objs.lookup p).getD []), s)
  CloseReader := fun _ s => (none, s)
  Delete := fun p s =>
    match s.deleteFaults with
    | e :: es => (some e, { s with deleteFaults := es })
    | [] =>
      if (s.objs.lookup p).isSome then
        (none, { s with objs := s.objs.filter (fun o => o.1 ≠ p) })
      else (some "not exist", s)
  IsRetryable := fun e => e == "transient"
  IsNotExist := fun e => e == "not exist"

/-- An empty store without faults. -/
def MemStore.empty : MemStore :=
  { objs := [], pending := [], writerFaults := [], writeFaults := [], closeFaults := [],
    readerFaults := [], deleteFaults := [] }

/-! ## job-shim: the pod lifecycle -/

/-- Server `pps.Transform`, as far as `do` reads it. -/
structure Transform where
  Cmd : List String
  Stdin : List String
  AcceptReturnCode : List Int
  Debug : Bool
deriving DecidableEq, Repr

/-- Response of `StartPod`, as far as `do` reads it. -/
structure StartPodResponse where
  ChunkID : String
  Transform : Transform
  CommitMounts : List String
deriving DecidableEq, Repr

/-- A request that `do` issues to the control plane. -/
inductive Rpc where
  | StartPod (jobID podName : String)
  | ContinuePod (chunkID podName : String)
  | FinishPod (chunkID podName : String) (success : Bool)
deriving DecidableEq, Repr

/-- What a collaborator does when `do` calls it. -/
inductive Outcome (α : Type) where
  /-- The call returns a value and a `nil` error. -/
  | ok (a : α)
  /-- The call returns an error. -/
  | err (e : Err)
  /-- The call panics after its request went out. -/
  | panic
  /-- The goroutine panics just before the call is made. -/
  | crash
deriving DecidableEq, Repr

/-- What `cmd.Run()` returns in the goroutine that runs the user command. -/
inductive RunResult where
  /-- A `nil` error: the command ran and exited with code 0. -/
  | exited
  /-- An `*exec.ExitError`; `status` is `ExitStatus()` of its wait status when `Sys()`
  is a `syscall.WaitStatus`. -/
  | exitError (status : Option Int)
  /-- Any other error, such as a failure to start the command. -/
  | other
deriving DecidableEq, Repr

/-- The value sent on `cmdCh` (lines 137-153). -/
def cmdSuccess (accept : List Int) (r : RunResult) : Bool :=
  match r with
  | RunResult.exited => true
  | RunResult.exitError (some status) =>
    accept.foldl (fun success returnCode => if returnCode = status then true else success) false
  | RunResult.exitError none => false
  | RunResult.other => false

/-- One run of `do` from the outside: what each collaborator does. -/
structure Env where
  /-- `NewInternalPodAPIClientFromAddress`. -/
  dial : Option Err
  /-- The `StartPod` call. -/
  startPod : Except Err StartPodResponse
  /-- `client.NewFromAddress` (line 81), called by the lifecycle itself. -/
  newClient : Outcome Unit
  /-- The goroutine that runs `MountAndCreate` (lines 89-100) and the `select` on `ready`
  and `errCh` (lines 101-105): `ok` is readiness, `err` a mount error.  `panic` and
  `crash` are a panic inside that goroutine: it ends the process, and no deferred
  function of the lifecycle runs. -/
  mount : Outcome Unit
  /-- The `ContinuePod` calls of the ticks that fire before the command completes;
  `ok b` is a response with `Exit = b`. -/
  ticks : List (Outcome Bool)
  /-- The result of the command; `none` when it is still running after the last tick. -/
  run : Option RunResult
  /-- The `FinishPod` call of the lifecycle itself; `ok b` is a response with `Fail = b`. -/
  finish : Outcome Bool
  /-- The deferred `mounter.Unmount`. -/
  unmount : Outcome Unit
  /-- The `FinishPod` call of the crash guard. -/
  guardFinish : Outcome Bool

/-- State in which the function literal of `do` is left: the named result, whether a
panic is under way, and the variable `finished`. -/
structure Leave where
  retErr : Option Err
  panicking : Bool
  finished : Bool
deriving DecidableEq, Repr

/-- How a run of `do` ends. -/
inductive ShimResult where
  /-- The function literal returns this error (`none` is `nil`). -/
  | returned (retErr : Option Err)
  /-- A panic leaves the function literal, or a panic in another goroutine ends the
  process. -/
  | crashed
  /-- The command is still running. -/
  | running
deriving DecidableEq, Repr

/-- The deferred crash guard (lines 65-79): `recover()` yields a value only while a
panic is under way. -/
def runGuard (env : Env) (chunkID podName : String) (trace : List Rpc) (x : Leave) :
    List Rpc × ShimResult :=
  if x.panicking && !x.finished then
    match env.guardFinish with
    | Outcome.ok _ =>
      (trace ++ [Rpc.FinishPod chunkID podName false], ShimResult.returned x.retErr)
    | Outcome.err e =>
      (trace ++ [Rpc.FinishPod chunkID podName false],
        ShimResult.returned (if x.retErr = none then some e else x.retErr))
    | Outcome.panic => (trace ++ [Rpc.FinishPod chunkID podName false], ShimResult.crashed)
    | Outcome.crash => (trace, ShimResult.crashed)
  else (trace, ShimResult.returned x.retErr)

/-- The deferred unmount (lines 106-110). -/
def runUnmount (env : Env) (x : Leave) : Leave :=
  match env.unmount with
  | Outcome.ok _ => x
  | Outcome.err e => if x.retErr = none then { x with retErr := some e } else x
  | Outcome.panic => { x with panicking := true }
  | Outcome.crash => { x with panicking := true }

/-- Leaving the function literal once both deferred functions are registered: they run
last registered first. -/
def leave (env : Env) (chunkID podName : String) (trace : List Rpc) (x : Leave) :
    List Rpc × ShimResult :=
  runGuard env chunkID podName trace (runUnmount env x)

/-- The `FinishPod` call of the lifecycle (lines 117-128 and 160-175) with the flag
`success`; `restart` tells whether a response with `Fail` makes `do` return the
error `restarting`. -/
def sendFinish (env : Env) (chunkID podName : String) (success restart : Bool)
    (trace : List Rpc) : List Rpc × ShimResult :=
  match env.finish with
  | Outcome.crash =>
    leave env chunkID podName trace { retErr := none, panicking := true, finished := false }
  | Outcome.panic =>
    leave env chunkID podName (trace ++ [Rpc.FinishPod chunkID podName success])
      { retErr := none, panicking := true, finished := false }
  | Outcome.err e =>
    leave env chunkID podName (trace ++ [Rpc.FinishPod chunkID podName success])
      { retErr := some e, panicking := false, finished := false }
  | Outcome.ok fail =>
    leave env chunkID podName (trace ++ [Rpc.FinishPod chunkID podName success])
      { retErr := if restart && fail then some "restarting" else none, panicking := false,
        finished := true }

/-- The heartbeat loop (lines 156-191): the ticks that fire before the command
completes, then the completion. -/
def heartbeat (env : Env) (response : StartPodResponse) (podName : String) :
    List (Outcome Bool) → List Rpc → List Rpc × ShimResult
  | [], trace =>
    match env.run with
    | none => (trace, ShimResult.running)
    | some r =>
      sendFinish env response.ChunkID podName
        (cmdSuccess response.Transform.AcceptReturnCode r) true trace
  | Outcome.crash :: _, trace =>
    leave env response.ChunkID podName trace
      { retErr := none, panicking := true, finished := false }
  | Outcome.panic :: _, trace =>
    leave env response.ChunkID podName (trace ++ [Rpc.ContinuePod response.ChunkID podName])
      { retErr := none, panicking := true, finished := false }
  | Outcome.err e :: _, trace =>
    leave env response.ChunkID podName (trace ++ [Rpc.ContinuePod response.ChunkID podName])
      { retErr := some e, panicking := false, finished := false }
  | Outcome.ok true :: _, trace =>
    leave env response.ChunkID podName (trace ++ [Rpc.ContinuePod response.ChunkID podName])
      { retErr := none, panicking := false, finished := false }
  | Outcome.ok false :: ts, trace =>
    heartbeat env response podName ts (trace ++ [Rpc.ContinuePod response.ChunkID podName])

/-- The function literal run by `do` (lines 39-193) for the job `jobID` in the pod
`podName`: the requests issued to the control plane, in order, and how the run ends.
The deferred crash guard runs when the function literal itself returns or panics; a
panic of the goroutine that mounts is out of its reach. -/
def doShim (env : Env) (jobID podName : String) : List Rpc × ShimResult :=
  match env.dial with
  | some e => ([], ShimResult.returned (some e))
  | none =>
    match env.startPod with
    | Except.error e => ([Rpc.StartPod jobID podName], ShimResult.returned (some e))
    | Except.ok response =>
      match env.newClient with
      | Outcome.err e =>
        runGuard env response.ChunkID podName [Rpc.StartPod jobID podName]
          { retErr := some e, panicking := false, finished := false }
      | Outcome.panic =>
        runGuard env response.ChunkID podName [Rpc.StartPod jobID podName]
          { retErr := none, panicking := true, finished := false }
      | Outcome.crash =>
        runGuard env response.ChunkID podName [Rpc.StartPod jobID podName]
          { retErr := none, panicking := true, finished := false }
      | Outcome.ok _ =>
        match env.mount with
        | Outcome.err e =>
          runGuard env response.ChunkID podName [Rpc.StartPod jobID podName]
            { retErr := some e, panicking := false, finished := false }
        | Outcome.panic => ([Rpc.StartPod jobID podName], ShimResult.crashed)
        | Outcome.crash => ([Rpc.StartPod jobID podName], ShimResult.crashed)
        | Outcome.ok _ =>
          if response.Transform.Cmd.length = 0 then
            sendFinish env response.ChunkID podName false false [Rpc.StartPod jobID podName]
          else
            heartbeat env response podName env.ticks [Rpc.StartPod jobID podName]

/-- Number of `FinishPod` requests in a trace. -/
def finishCount (trace : List Rpc) : Nat :=
  (trace.filter (fun r => match r with
    | Rpc.FinishPod _ _ _ => true
    | _ => false)).length

/-- No `ContinuePod` request stands after a `FinishPod` request. -/
def noContinueAfterFinish : List Rpc → Bool
  | [] => true
  | Rpc.FinishPod _ _ _ :: rest =>
    rest.all (fun r => match r with
      | Rpc.ContinuePod _ _ => false
      | _ => true) && noContinueAfterFinish rest
  | _ :: rest => noContinueAfterFinish rest

/-- Some collaborator panics, or the goroutine panics before calling one. -/
def Outcome.isPanic {α : Type} : Outcome α → Bool
  | Outcome.panic => true
  | Outcome.crash => true
  | _ => false

/-- The run contains no panic at all. -/
def Env.panicFree (env : Env) : Bool :=
  !env.newClient.isPanic && !env.mount.isPanic && env.ticks.all (fun t => !t.isPanic) &&
    !env.finish.isPanic && !env.unmount.isPanic

/-! ## Specification-side definitions and sample inputs -/

/-- A small configuration on which the definitions can be run: blocks of four bytes, two
retries, a hash that writes every byte in unary, and a decoder that finds no value. -/
def demoConfig : Config where
  dir := "pfs"
  shardLen := 2
  blockSize := 4
  retries := 2
  hash := fun b => String.mk (b.flatMap (fun n => List.replicate n 'a' ++ ['b']))
  jsonEnd := fun _ => Except.ok 0

/-- The success rule in the words of the specification (section 4.8, step 7): exit code
0 is success; a non-zero exit is success exactly when the code is listed in
`acceptReturnCode`; any other error is failure. -/
def specSuccess (accept : List Int) (r : RunResult) : Bool :=
  match r with
  | RunResult.exited => true
  | RunResult.exitError (some code) => decide (code ∈ accept)
  | RunResult.exitError none => false
  | RunResult.other => false

/-- A run of `do` on which the definitions can be evaluated: the command `true` with
accepted return code 2, one heartbeat, everything succeeds. -/
def demoEnv : Env where
  dial := none
  startPod := Except.ok
    { ChunkID := "chunk",
      Transform := { Cmd := ["true"], Stdin := [], AcceptReturnCode := [2], Debug := false },
      CommitMounts := [] }
  newClient := Outcome.ok ()
  mount := Outcome.ok ()
  ticks := [Outcome.ok false]
  run := some (RunResult.exitError (some 2))
  finish := Outcome.ok false
  unmount := Outcome.ok ()
  guardFinish := Outcome.ok false

/-- The run `demoEnv`, except that the `FinishPod` call fails with an RPC error and the
deferred unmount panics. -/
def finishErrorThenPanicEnv : Env :=
  { demoEnv with finish := Outcome.err "rpc error", unmount := Outcome.panic }

/-- The run `demoEnv`, except that mounting reports an error. -/
def mountErrorEnv : Env :=
  { demoEnv with mount := Outcome.err "mount failed" }

/-- The bytes of the blocks, concatenated in order. -/
def blockBytes (blocks : List (BlockRef × Bytes)) : Bytes := (blocks.map Prod.snd).flatten

/-- Starting at stream offset `off`, every reference carries the hash of its block and
the range that the block occupies, each range beginning where the one before ends. -/
def wellRanged (cfg : Config) : Nat → List (BlockRef × Bytes) → Prop
  | _, [] => True
  | off, (ref, data) :: rest =>
    ref.hash = cfg.hash data ∧ ref.lower = off ∧ ref.upper = off + data.length ∧
      wellRanged cfg (off + data.length) rest

/-- The loop state after one more block has been read and its persistence task has run. -/
def PutState.next {σ : Type} (c : Client σ) (cfg : Config) (st : PutState σ) (ref : BlockRef)
    (data : Bytes) (reader : ReaderState) : PutState σ :=
  { reader := reader, blocks := st.blocks ++ [(ref, data)],
    store := (persist c cfg ref.hash data st.store).store,
    calls := st.calls ++ (persist c cfg ref.hash data st.store).calls,
    errs := st.errs ++ (persist c cfg ref.hash data st.store).retErr.toList }

/-- A call of the kind `Exists`. -/
def Call.isExists : Call → Bool
  | Call.Exists _ => true
  | _ => false

/-- Every object of `a` is an object of `b`, and every call logged in `a` is logged in `b`. -/
def Task.le (a b : Task MemStore) : Prop :=
  (∃ extra, b.store.objs = extra ++ a.store.objs) ∧ ∃ more, b.calls = a.calls ++ more

/-- The path that a call addresses. -/
def Call.path : Call → Path
  | Call.Exists p => p
  | Call.Writer p => p
  | Call.Write p _ => p
  | Call.Close p => p
  | Call.Reader p => p
  | Call.ReadAll p => p
  | Call.CloseReader p => p
  | Call.Delete p => p

/-- Content addressing holds in the store: the object kept at the block path of a hash
has that hash. -/
def MemStore.addressed (cfg : Config) (s : MemStore) : Prop :=
  ∀ hash block, s.objs.lookup (blockPath cfg hash) = some block → cfg.hash block = hash

/-- Content addressing holds in the cache: the bytes cached under a key have that hash. -/
def cacheAddressed (cfg : Config) (cache : Cache) : Prop :=
  ∀ key block, cache.lookup key = some block → cfg.hash block = key

/-- What the loop of `PutBlock` maintains on a store without faults. -/
def PutState.sound (cfg : Config) (blocks : List (BlockRef × Bytes)) (store : MemStore) : Prop :=
  store.faultFree ∧ store.addressed cfg ∧
    ∀ b ∈ blocks, b.1.hash = cfg.hash b.2 ∧
      memClient.Exists (blockPath cfg b.1.hash) store = true

/-- The unary code behind the hash of `demoConfig`: every byte `n` becomes `n` letters
`a` closed by one `b`. -/
def unary (b : Bytes) : List Char := b.flatMap (fun n => List.replicate n 'a' ++ ['b'])

/-! # Theorems -/

/-! ## GetBlock, DeleteBlock, retries -/

theorem goSlice_window (data : Bytes) (offset size : Nat) (h : offset + size ≤ data.length) :
    goSlice data offset (offset + size) = some ((data.drop offset).take size) := by
  unfold goSlice
  have h1 : offset ≤ offset + size ∧ offset + size ≤ data.length := ⟨Nat.le_add_right _ _, h⟩
  rw [if_pos h1, Nat.add_sub_cancel_left]

theorem goSlice_tail (data : Bytes) (offset : Nat) (h : offset ≤ data.length) :
    goSlice data offset data.length = some (data.drop offset) := by
  unfold goSlice
  rw [if_pos ⟨h, le_refl _⟩]
  congr 1
  apply List.take_of_length_le
  simp

theorem sliceBlock_eq_specSlice (data : Bytes) (offset size : Nat) (h : offset + size < u64) :
    sliceBlock data offset size = some (specSlice data offset size) := by
  unfold sliceBlock specSlice
  have e1 : (size + offset) % u64 = offset + size := by
    rw [Nat.add_comm, Nat.mod_eq_of_lt h]
  have e2 : (offset + size) % u64 = offset + size := Nat.mod_eq_of_lt h
  rw [e1, e2]
  by_cases hc : size ≠ 0 ∧ offset + size < data.length
  · rw [if_pos hc, if_pos hc]
    exact goSlice_window data offset size (Nat.le_of_lt hc.2)
  · rw [if_neg hc, if_neg hc]
    by_cases ho : offset < data.length
    · rw [if_pos ho, if_pos ho]
      exact goSlice_tail data offset (Nat.le_of_lt ho)
    · rw [if_neg ho, if_neg ho]

theorem specSlice_zero (data : Bytes) : specSlice data 0 0 = data := by
  unfold specSlice
  simp

theorem cacheGet_lookup {σ : Type} (c : Client σ) (cfg : Config) (key : String) (cache : Cache)
    (store : σ) (data : Bytes) (cache1 : Cache) (s1 : σ) (calls : List Call)
    (h : cacheGet c cfg key cache store = (Except.ok data, cache1, s1, calls)) :
    cache1.lookup key = some data := by
  unfold cacheGet at h
  cases hl : cache.lookup key with
  | some block =>
    rw [hl] at h
    simp at h
    obtain ⟨h1, h2, _, _⟩ := h
    rw [← h2, ← h1]; exact hl
  | none =>
    rw [hl] at h
    rcases hg : getter c cfg key store with ⟨r, s2, cl⟩
    rw [hg] at h
    cases r with
    | error e => simp at h
    | ok block =>
      simp at h
      obtain ⟨h1, h2, _, _⟩ := h
      rw [← h2, ← h1]
      simp [List.lookup]

theorem getBlock_of_cacheGet {σ : Type} (c : Client σ) (cfg : Config) (key : String)
    (offset size : Nat) (cache : Cache) (store : σ) (data : Bytes) (cache1 : Cache) (s1 : σ)
    (calls : List Call) (hsum : offset + size < u64)
    (h : cacheGet c cfg key cache store = (Except.ok data, cache1, s1, calls)) :
    GetBlock c cfg key offset size cache store =
      { result := GetResult.sent [specSlice data offset size], cache := cache1, store := s1,
        calls := calls } := by
  unfold GetBlock
  rw [h]
  simp only [sliceBlock_eq_specSlice data offset size hsum]

/-- Claim C3.  Whenever the cache hands `GetBlock` the block `data` and `offset + size`
stays inside the unsigned 64-bit range, `GetBlock` sends exactly one frame, and its value
is `data[offset:offset+size]` if `size ≠ 0` and `offset + size < len(data)`, otherwise
`data[offset:]` if `offset < len(data)`, otherwise empty.  In particular the request
`(0, 0)` sends the whole block, and a request `(offset, size)` made after it sends that
slicing of what the request `(0, 0)` sent. -/
theorem C3_getBlock_slicing {σ : Type} (c : Client σ) (cfg : Config) (hash : String)
    (offset size : Nat) (cache : Cache) (store : σ) (data : Bytes) (cache1 : Cache) (s1 : σ)
    (calls : List Call) (hsum : offset + size < u64)
    (hget : cacheGet c cfg hash cache store = (Except.ok data, cache1, s1, calls)) :
    (GetBlock c cfg hash offset size cache store).result
        = GetResult.sent [specSlice data offset size] ∧
      (GetBlock c cfg hash 0 0 cache store).result = GetResult.sent [data] ∧
      (GetBlock c cfg hash offset size (GetBlock c cfg hash 0 0 cache store).cache
          (GetBlock c cfg hash 0 0 cache store).store).result
        = GetResult.sent [specSlice data offset size] := by
  have h0 : (0 : Nat) + 0 < u64 := by unfold u64; norm_num
  have g0 := getBlock_of_cacheGet c cfg hash 0 0 cache store data cache1 s1 calls h0 hget
  have g1 := getBlock_of_cacheGet c cfg hash offset size cache store data cache1 s1 calls hsum hget
  rw [specSlice_zero] at g0
  refine ⟨by rw [g1], by rw [g0], ?_⟩
  rw [g0]
  have hl := cacheGet_lookup c cfg hash cache store data cache1 s1 calls hget
  have hhit : cacheGet c cfg hash cache1 s1 = (Except.ok data, cache1, s1, []) := by
    unfold cacheGet
    rw [hl]
  rw [getBlock_of_cacheGet c cfg hash offset size cache1 s1 data cache1 s1 [] hsum hhit]

/-- Claim C3 at a concrete request: bytes 1 and 2 of a cached block of five bytes. -/
theorem C3_getBlock_slicing_witness :
    (1 + 2 < u64 ∧
      cacheGet memClient demoConfig "k" [("k", [1, 2, 3, 4, 5])] MemStore.empty
        = (Except.ok [1, 2, 3, 4, 5], [("k", [1, 2, 3, 4, 5])], MemStore.empty, [])) ∧
    (GetBlock memClient demoConfig "k" 1 2 [("k", [1, 2, 3, 4, 5])] MemStore.empty).result
      = GetResult.sent [[2, 3]] :=
  ⟨⟨by unfold u64; norm_num, rfl⟩,
   (C3_getBlock_slicing memClient demoConfig "k" 1 2 [("k", [1, 2, 3, 4, 5])] MemStore.empty
      [1, 2, 3, 4, 5] [("k", [1, 2, 3, 4, 5])] MemStore.empty [] (by unfold u64; norm_num) rfl).1⟩

theorem retryNotify_none {τ : Type} (op : τ → Option Err × τ) (n : Nat) (t t1 : τ)
    (h : op t = (none, t1)) : retryNotify op n t = (none, t1) := by
  cases n with
  | zero => simp [retryNotify, h]
  | succ n => simp [retryNotify, h]

/-- Claim C9.  If `ObjectClient.delete` on `blockPath(hash)` fails with an error that the
client classifies as not-exist, `DeleteBlock` makes that one call only (no retry), and
returns the empty response with a `nil` error. -/
theorem C9_deleteBlock_missing {σ : Type} (c : Client σ) (cfg : Config) (hash : String)
    (store s1 : σ) (e : Err) (hdel : c.Delete (blockPath cfg hash) store = (some e, s1))
    (hne : c.IsNotExist e = true) :
    (DeleteBlock c cfg hash store).retErr = none ∧
      (DeleteBlock c cfg hash store).calls = [Call.Delete (blockPath cfg hash)] ∧
      (DeleteBlock c cfg hash store).store = s1 := by
  have hop : deleteAttempt c (blockPath cfg hash) (store, []) =
      (none, (s1, [Call.Delete (blockPath cfg hash)])) := by
    simp [deleteAttempt, hdel, hne]
  simp [DeleteBlock, retryNotify_none _ _ _ _ hop]

/-- Claim C9 on the store in memory: deleting a block that is not stored. -/
theorem C9_deleteBlock_missing_witness :
    (memClient.Delete (blockPath demoConfig "aab") MemStore.empty
        = (some "not exist", MemStore.empty) ∧ memClient.IsNotExist "not exist" = true) ∧
    (DeleteBlock memClient demoConfig "aab" MemStore.empty).retErr = none ∧
      (DeleteBlock memClient demoConfig "aab" MemStore.empty).calls
        = [Call.Delete (blockPath demoConfig "aab")] ∧
      (DeleteBlock memClient demoConfig "aab" MemStore.empty).store = MemStore.empty :=
  ⟨⟨rfl, rfl⟩, C9_deleteBlock_missing memClient demoConfig "aab" MemStore.empty MemStore.empty
    "not exist" rfl rfl⟩

/-- Claim C10, the code at a failing input.  The delete call fails with the error `fatal`,
which is neither not-exist nor retryable.  `DeleteBlock` calls delete again until the
two retries of the back-off are used up, three calls in all, and then returns the empty
response with a `nil` error: the error never reaches the caller.  On every store
`DeleteBlock` returns a `nil` error. -/
theorem C10_deleteBlock_swallows_fatal :
    (∀ (hash : String) (store : MemStore),
      (DeleteBlock memClient demoConfig hash store).retErr = none) ∧
    memClient.IsNotExist "fatal" = false ∧ memClient.IsRetryable "fatal" = false ∧
    (DeleteBlock memClient demoConfig "aab"
        { MemStore.empty with deleteFaults := ["fatal", "fatal", "fatal", "fatal"] }).retErr = none ∧
    (DeleteBlock memClient demoConfig "aab"
        { MemStore.empty with deleteFaults := ["fatal", "fatal", "fatal", "fatal"] }).calls
      = [Call.Delete (blockPath demoConfig "aab"), Call.Delete (blockPath demoConfig "aab"),
         Call.Delete (blockPath demoConfig "aab")] := by
  refine ⟨fun _ _ => rfl, by decide, by decide, rfl, rfl⟩

/-- Claim C8, the code at a failing input.  Closing the writer fails with a retryable error
on each of the three attempts that the back-off allows.  The write is attempted three
times, `PutBlock` then answers with a `BlockRefs` response that lists the block, and
the block is not in the store: the error that `RetryNotify` returned is lost. -/
theorem C8_putBlock_drops_retry_error :
    memClient.IsRetryable "transient" = true ∧
    (PutBlock memClient demoConfig Delimiter.NONE [[1, 2, 3]]
        { MemStore.empty with closeFaults := ["transient", "transient", "transient"] }).result
      = PutResult.ok [{ hash := "abaabaaab", lower := 0, upper := 3 }] ∧
    memClient.Exists (blockPath demoConfig "abaabaaab")
      (PutBlock memClient demoConfig Delimiter.NONE [[1, 2, 3]]
        { MemStore.empty with closeFaults := ["transient", "transient", "transient"] }).store
      = false ∧
    ((PutBlock memClient demoConfig Delimiter.NONE [[1, 2, 3]]
        { MemStore.empty with closeFaults := ["transient", "transient", "transient"] }).calls.filter
      (fun call => call = Call.Close (blockPath demoConfig "abaabaaab"))).length = 3 := by
  refine ⟨by decide, by rfl, by rfl, by rfl⟩

/-! ## job-shim -/

theorem foldl_accept (code : Int) (accept : List Int) (b : Bool) :
    accept.foldl (fun success returnCode => if returnCode = code then true else success) b
      = (b || decide (code ∈ accept)) := by
  induction accept generalizing b with
  | nil => simp
  | cons a as ih =>
    simp only [List.foldl_cons, ih, List.mem_cons]
    by_cases h : a = code
    · simp [h]
    · have h2 : ¬ code = a := fun e => h e.symm
      simp [h, h2]

theorem cmdSuccess_eq_specSuccess (accept : List Int) (r : RunResult) :
    cmdSuccess accept r = specSuccess accept r := by
  cases r with
  | exited => rfl
  | exitError status =>
    cases status with
    | none => rfl
    | some code =>
      show List.foldl _ false accept = decide (code ∈ accept)
      rw [foldl_accept]
      simp
  | other => rfl

theorem finishCount_append (a b : List Rpc) :
    finishCount (a ++ b) = finishCount a + finishCount b := by
  simp [finishCount, List.filter_append]

theorem noContinue_append (a b : List Rpc) (h : finishCount a = 0) :
    noContinueAfterFinish (a ++ b) = noContinueAfterFinish b := by
  induction a with
  | nil => rfl
  | cons r rs ih =>
    cases r with
    | StartPod j p =>
      have h2 : finishCount rs = 0 := by simpa [finishCount] using h
      simpa [noContinueAfterFinish] using ih h2
    | ContinuePod c p =>
      have h2 : finishCount rs = 0 := by simpa [finishCount] using h
      simpa [noContinueAfterFinish] using ih h2
    | FinishPod c p s => simp [finishCount] at h

theorem leave_trace (env : Env) (c p : String) (tr : List Rpc) (x : Leave) :
    (leave env c p tr x).1 = tr ∨
      ((leave env c p tr x).1 = tr ++ [Rpc.FinishPod c p false] ∧ x.finished = false ∧
        (x.panicking = true ∨ env.unmount.isPanic = true)) := by
  unfold leave runGuard runUnmount
  rcases x with ⟨re, pa, fi⟩
  cases hu : env.unmount <;> cases hg : env.guardFinish <;> cases pa <;> cases fi <;>
    simp [Outcome.isPanic] <;> split <;> simp

theorem runGuard_trace (env : Env) (c p : String) (tr : List Rpc) (x : Leave) :
    (runGuard env c p tr x).1 = tr ∨
      ((runGuard env c p tr x).1 = tr ++ [Rpc.FinishPod c p false] ∧ x.finished = false ∧
        x.panicking = true) := by
  unfold runGuard
  rcases x with ⟨re, pa, fi⟩
  cases hg : env.guardFinish <;> cases pa <;> cases fi <;> simp

theorem noContinue_of_count_zero (tr : List Rpc) (h0 : finishCount tr = 0) :
    noContinueAfterFinish tr = true := by
  have := noContinue_append tr [] h0
  simpa [noContinueAfterFinish] using this

theorem leave_props (env : Env) (c p : String) (tr : List Rpc) (x : Leave)
    (h0 : finishCount tr = 0) :
    noContinueAfterFinish (leave env c p tr x).1 = true ∧
      finishCount (leave env c p tr x).1 ≤ 1 := by
  rcases leave_trace env c p tr x with h | ⟨h, _, _⟩
  · rw [h, h0]; exact ⟨noContinue_of_count_zero tr h0, Nat.zero_le _⟩
  · rw [h, finishCount_append, h0, noContinue_append _ _ h0]
    exact ⟨rfl, by simp [finishCount]⟩

theorem sendFinish_props (env : Env) (c p : String) (s restart : Bool) (tr : List Rpc)
    (h0 : finishCount tr = 0) :
    noContinueAfterFinish (sendFinish env c p s restart tr).1 = true ∧
      finishCount (sendFinish env c p s restart tr).1 ≤ 2 ∧
      (((env.finish.isPanic = false ∧ env.unmount.isPanic = false) ∨
          ∃ b, env.finish = Outcome.ok b) →
        finishCount (sendFinish env c p s restart tr).1 ≤ 1) := by
  have hn : ∀ tail : List Rpc, noContinueAfterFinish (tr ++ tail) = noContinueAfterFinish tail :=
    fun tail => noContinue_append tr tail h0
  unfold sendFinish
  cases hf : env.finish with
  | crash =>
    simp only []
    rcases leave_trace env c p tr ⟨none, true, false⟩ with h | ⟨h, _, _⟩
    · rw [h]
      have := hn []
      simp only [List.append_nil] at this
      rw [this, h0]
      simp [noContinueAfterFinish]
    · rw [h, hn, finishCount_append, h0]
      simp [noContinueAfterFinish, finishCount]
  | panic =>
    simp only []
    rcases leave_trace env c p (tr ++ [Rpc.FinishPod c p s]) ⟨none, true, false⟩ with
      h | ⟨h, _, _⟩
    · rw [h, hn, finishCount_append, h0]
      simp [noContinueAfterFinish, finishCount, Outcome.isPanic]
    · rw [h, List.append_assoc, hn, finishCount_append, h0]
      simp [noContinueAfterFinish, finishCount, Outcome.isPanic]
  | err e =>
    simp only []
    rcases leave_trace env c p (tr ++ [Rpc.FinishPod c p s]) ⟨some e, false, false⟩ with
      h | ⟨h, _, hp⟩
    · rw [h, hn, finishCount_append, h0]
      simp [noContinueAfterFinish, finishCount]
    · rw [h, List.append_assoc, hn, finishCount_append, h0]
      have hu : env.unmount.isPanic = true := by simpa using hp
      simp [noContinueAfterFinish, finishCount, hu]
  | ok b =>
    simp only []
    rcases leave_trace env c p (tr ++ [Rpc.FinishPod c p s])
      ⟨if (restart && b) = true then some "restarting" else none, false, true⟩ with
      h | ⟨h, hfin, _⟩
    · rw [h, hn, finishCount_append, h0]
      simp [noContinueAfterFinish, finishCount]
    · simp at hfin

theorem heartbeat_props (env : Env) (response : StartPodResponse) (p : String)
    (ticks : List (Outcome Bool)) (tr : List Rpc) (h0 : finishCount tr = 0) :
    noContinueAfterFinish (heartbeat env response p ticks tr).1 = true ∧
      finishCount (heartbeat env response p ticks tr).1 ≤ 2 ∧
      (((ticks.all (fun t => !t.isPanic) = true ∧ env.finish.isPanic = false ∧
            env.unmount.isPanic = false) ∨ ∃ b, env.finish = Outcome.ok b) →
        finishCount (heartbeat env response p ticks tr).1 ≤ 1) := by
  have hempty : noContinueAfterFinish tr = true := by
    have := noContinue_append tr [] h0
    simpa [noContinueAfterFinish] using this
  have hstep : finishCount (tr ++ [Rpc.ContinuePod response.ChunkID p]) = 0 := by
    rw [finishCount_append, h0]; rfl
  have hstepn : noContinueAfterFinish (tr ++ [Rpc.ContinuePod response.ChunkID p]) = true := by
    rw [noContinue_append _ _ h0]; rfl
  induction ticks generalizing tr with
  | nil =>
    unfold heartbeat
    cases hr : env.run with
    | none => simp only []; rw [h0]; exact ⟨hempty, by omega, fun _ => by omega⟩
    | some r =>
      simp only []
      have := sendFinish_props env response.ChunkID p
        (cmdSuccess response.Transform.AcceptReturnCode r) true tr h0
      refine ⟨this.1, this.2.1, fun h => this.2.2 ?_⟩
      rcases h with ⟨_, h2, h3⟩ | h
      · exact Or.inl ⟨h2, h3⟩
      · exact Or.inr h
  | cons t ts ih =>
    cases t with
    | crash =>
      unfold heartbeat
      have := leave_props env response.ChunkID p tr ⟨none, true, false⟩ h0
      exact ⟨this.1, by omega, fun _ => this.2⟩
    | panic =>
      unfold heartbeat
      have := leave_props env response.ChunkID p _ ⟨none, true, false⟩ hstep
      exact ⟨this.1, by omega, fun _ => this.2⟩
    | err e =>
      unfold heartbeat
      have := leave_props env response.ChunkID p _ ⟨some e, false, false⟩ hstep
      exact ⟨this.1, by omega, fun _ => this.2⟩
    | ok b =>
      cases b with
      | true =>
        unfold heartbeat
        have := leave_props env response.ChunkID p _ ⟨none, false, false⟩ hstep
        exact ⟨this.1, by omega, fun _ => this.2⟩
      | false =>
        unfold heartbeat
        have hh := ih (tr ++ [Rpc.ContinuePod response.ChunkID p]) hstep hstepn
          (by rw [finishCount_append, hstep]; rfl)
          (by rw [noContinue_append _ _ hstep]; rfl)
        refine ⟨hh.1, hh.2.1, fun h => hh.2.2 ?_⟩
        rcases h with ⟨h1, h2, h3⟩ | h
        · left
          refine ⟨?_, h2, h3⟩
          simpa [Outcome.isPanic] using h1
        · exact Or.inr h

theorem guard_props (env : Env) (c p j : String) (x : Leave) :
    noContinueAfterFinish (runGuard env c p [Rpc.StartPod j p] x).1 = true ∧
      finishCount (runGuard env c p [Rpc.StartPod j p] x).1 ≤ 1 := by
  rcases runGuard_trace env c p [Rpc.StartPod j p] x with h | ⟨h, _, _⟩
  · rw [h]; exact ⟨rfl, by simp [finishCount]⟩
  · rw [h]; exact ⟨rfl, by simp [finishCount]⟩

/-- Bounds on the requests of a run.  In every run of the lifecycle, whatever the
collaborators answer and wherever a panic occurs: no `ContinuePod` is issued after a
`FinishPod`; `FinishPod` is issued at most twice; and it is issued at most once in every
run without a panic and in every run in which the `FinishPod` call of the lifecycle
itself returns a response (which sets `finished`). -/
theorem finishPod_bounds (env : Env) (jobID podName : String) :
    noContinueAfterFinish (doShim env jobID podName).1 = true ∧
      finishCount (doShim env jobID podName).1 ≤ 2 ∧
      ((env.panicFree = true ∨ ∃ b, env.finish = Outcome.ok b) →
        finishCount (doShim env jobID podName).1 ≤ 1) := by
  have base : finishCount [Rpc.StartPod jobID podName] = 0 := rfl
  unfold doShim
  cases hd : env.dial with
  | some e => exact ⟨rfl, by simp [finishCount], fun _ => by simp [finishCount]⟩
  | none =>
    cases hs : env.startPod with
    | error e => exact ⟨rfl, by simp [finishCount], fun _ => by simp [finishCount]⟩
    | ok response =>
      cases hc : env.newClient with
      | err e =>
        have := guard_props env response.ChunkID podName jobID ⟨some e, false, false⟩
        exact ⟨this.1, by have := this.2; simp only [] at *; omega, fun _ => this.2⟩
      | panic =>
        have := guard_props env response.ChunkID podName jobID ⟨none, true, false⟩
        exact ⟨this.1, by have := this.2; simp only [] at *; omega, fun _ => this.2⟩
      | crash =>
        have := guard_props env response.ChunkID podName jobID ⟨none, true, false⟩
        exact ⟨this.1, by have := this.2; simp only [] at *; omega, fun _ => this.2⟩
      | ok u =>
        cases hm : env.mount with
        | err e =>
          have := guard_props env response.ChunkID podName jobID ⟨some e, false, false⟩
          exact ⟨this.1, by have := this.2; simp only [] at *; omega, fun _ => this.2⟩
        | panic => exact ⟨rfl, by simp [finishCount], fun _ => by simp [finishCount]⟩
        | crash => exact ⟨rfl, by simp [finishCount], fun _ => by simp [finishCount]⟩
        | ok u2 =>
          simp only []
          by_cases hcmd : response.Transform.Cmd.length = 0
          · rw [if_pos hcmd]
            have := sendFinish_props env response.ChunkID podName false false _ base
            refine ⟨this.1, this.2.1, fun h => this.2.2 ?_⟩
            rcases h with h | h
            · left
              simp [Env.panicFree] at h
              exact ⟨h.1.2, h.2⟩
            · exact Or.inr h
          · rw [if_neg hcmd]
            have := heartbeat_props env response podName env.ticks _ base
            refine ⟨this.1, this.2.1, fun h => this.2.2 ?_⟩
            rcases h with h | h
            · left
              simp [Env.panicFree] at h
              refine ⟨?_, h.1.2, h.2⟩
              simpa using h.1.1.2
            · exact Or.inr h

/-- Claim C5, the code at a failing input.  The command completes, the `FinishPod` call of
the lifecycle returns an RPC error (so `finished` stays false, lines 168-171), the
deferred unmount panics, and the crash guard, seeing a panic and `finished` false,
issues `FinishPod` a second time: two `FinishPod` requests in one run, where the
comment at lines 60-62 wants only one. -/
theorem C5_finishPod_twice :
    (doShim finishErrorThenPanicEnv "job" "pod").1 =
        [Rpc.StartPod "job" "pod", Rpc.ContinuePod "chunk" "pod",
          Rpc.FinishPod "chunk" "pod" true, Rpc.FinishPod "chunk" "pod" false] ∧
      ¬ finishCount (doShim finishErrorThenPanicEnv "job" "pod").1 ≤ 1 := by
  refine ⟨rfl, ?_⟩
  decide

/-- The bounds on a run without panic. -/
theorem finishPod_bounds_sample :
    (demoEnv.panicFree = true ∨ ∃ b, demoEnv.finish = Outcome.ok b) ∧
      finishCount (doShim demoEnv "job" "pod").1 ≤ 1 :=
  ⟨Or.inl rfl, (finishPod_bounds demoEnv "job" "pod").2.2 (Or.inl rfl)⟩

/-- Claim C7 fails as stated: when mounting reports an error the lifecycle returns it and
no `FinishPod` is issued at all, because nothing panics and the crash guard acts only
on a recovered panic. -/
theorem C7_mount_error_no_finishPod :
    doShim mountErrorEnv "job" "pod" =
        ([Rpc.StartPod "job" "pod"], ShimResult.returned (some "mount failed")) ∧
      finishCount (doShim mountErrorEnv "job" "pod").1 = 0 := by
  refine ⟨rfl, rfl⟩

/-- Claim C7 as amended.  After a successful `StartPod`, when mounting reports an error
before readiness, the lifecycle returns that error at once and issues no `FinishPod` on
the way out: the only request of the run is `StartPod`. -/
theorem C7_mount_failure_amended (env : Env) (jobID podName : String)
    (response : StartPodResponse) (u : Unit) (e : Err) (hd : env.dial = none)
    (hs : env.startPod = Except.ok response) (hc : env.newClient = Outcome.ok u)
    (hm : env.mount = Outcome.err e) :
    doShim env jobID podName = ([Rpc.StartPod jobID podName], ShimResult.returned (some e)) ∧
      finishCount (doShim env jobID podName).1 = 0 := by
  have h : doShim env jobID podName =
      ([Rpc.StartPod jobID podName], ShimResult.returned (some e)) := by
    simp [doShim, hd, hs, hc, hm, runGuard]
  rw [h]
  exact ⟨rfl, rfl⟩

/-- Claim C7 as amended, on a run in which mounting reports an error. -/
theorem C7_mount_failure_amended_witness :
    (mountErrorEnv.dial = none ∧ mountErrorEnv.mount = Outcome.err "mount failed") ∧
      doShim mountErrorEnv "job" "pod" =
        ([Rpc.StartPod "job" "pod"], ShimResult.returned (some "mount failed")) :=
  ⟨⟨rfl, rfl⟩,
    (C7_mount_failure_amended mountErrorEnv "job" "pod"
      { ChunkID := "chunk",
        Transform := { Cmd := ["true"], Stdin := [], AcceptReturnCode := [2], Debug := false },
        CommitMounts := [] } () "mount failed" rfl rfl rfl rfl).1⟩

/-- A panic of the goroutine that mounts ends the run after `StartPod`, without any
`FinishPod`. -/
theorem mount_panic_ends_run (env : Env) (jobID podName : String)
    (response : StartPodResponse) (u : Unit) (hd : env.dial = none)
    (hs : env.startPod = Except.ok response) (hc : env.newClient = Outcome.ok u)
    (hm : env.mount = Outcome.panic) :
    doShim env jobID podName = ([Rpc.StartPod jobID podName], ShimResult.crashed) := by
  simp [doShim, hd, hs, hc, hm]

theorem heartbeat_all_continue (env : Env) (response : StartPodResponse) (p : String)
    (ticks : List (Outcome Bool)) (tr : List Rpc) (h : ∀ t ∈ ticks, t = Outcome.ok false) :
    heartbeat env response p ticks tr =
      heartbeat env response p []
        (tr ++ ticks.map (fun _ => Rpc.ContinuePod response.ChunkID p)) := by
  induction ticks generalizing tr with
  | nil => simp
  | cons t ts ih =>
    have ht : t = Outcome.ok false := h t (List.mem_cons_self _ _)
    subst ht
    have step : heartbeat env response p (Outcome.ok false :: ts) tr =
        heartbeat env response p ts (tr ++ [Rpc.ContinuePod response.ChunkID p]) := by
      simp [heartbeat]
    rw [step, ih _ (fun t ht => h t (List.mem_cons_of_mem _ ht))]
    simp

theorem sendFinish_sent (env : Env) (c p : String) (s restart : Bool) (tr : List Rpc)
    (hf : env.finish ≠ Outcome.crash) :
    ∃ rest, (sendFinish env c p s restart tr).1 = tr ++ Rpc.FinishPod c p s :: rest := by
  unfold sendFinish
  cases hfin : env.finish with
  | crash => exact absurd hfin hf
  | panic =>
    simp only []
    rcases leave_trace env c p (tr ++ [Rpc.FinishPod c p s]) ⟨none, true, false⟩ with
      h | ⟨h, _, _⟩
    · exact ⟨[], by rw [h]⟩
    · exact ⟨[Rpc.FinishPod c p false], by rw [h]; simp⟩
  | err e =>
    simp only []
    rcases leave_trace env c p (tr ++ [Rpc.FinishPod c p s]) ⟨some e, false, false⟩ with
      h | ⟨h, _, _⟩
    · exact ⟨[], by rw [h]⟩
    · exact ⟨[Rpc.FinishPod c p false], by rw [h]; simp⟩
  | ok b =>
    simp only []
    rcases leave_trace env c p (tr ++ [Rpc.FinishPod c p s])
      ⟨if (restart && b) = true then some "restarting" else none, false, true⟩ with
      h | ⟨h, _, _⟩
    · exact ⟨[], by rw [h]⟩
    · exact ⟨[Rpc.FinishPod c p false], by rw [h]; simp⟩

/-- Claim C6.  When the lifecycle reaches the completion of the user command and issues
its `FinishPod`, the flag it sends is the one of the specification: true when
`cmd.Run()` reports a natural exit with code 0; for an exit error with exit status
`code`, true exactly when `code` is listed in `AcceptReturnCode`; false for any other
error, whatever `AcceptReturnCode` holds.  (`int` is taken to be 64 bits wide.) -/
theorem C6_success_flag (env : Env) (jobID podName : String) (response : StartPodResponse)
    (u v : Unit) (r : RunResult) (hd : env.dial = none)
    (hs : env.startPod = Except.ok response) (hc : env.newClient = Outcome.ok u)
    (hm : env.mount = Outcome.ok v) (hcmd : response.Transform.Cmd ≠ [])
    (hticks : ∀ t ∈ env.ticks, t = Outcome.ok false) (hrun : env.run = some r)
    (hf : env.finish ≠ Outcome.crash) :
    (∃ rest, (doShim env jobID podName).1 =
        Rpc.StartPod jobID podName ::
          (env.ticks.map (fun _ => Rpc.ContinuePod response.ChunkID podName) ++
            Rpc.FinishPod response.ChunkID podName
              (specSuccess response.Transform.AcceptReturnCode r) :: rest)) ∧
      specSuccess response.Transform.AcceptReturnCode RunResult.exited = true ∧
      (∀ code : Int, specSuccess response.Transform.AcceptReturnCode
          (RunResult.exitError (some code)) = true ↔
        code ∈ response.Transform.AcceptReturnCode) ∧
      specSuccess response.Transform.AcceptReturnCode RunResult.other = false := by
  refine ⟨?_, rfl, fun code => by simp [specSuccess], rfl⟩
  have hlen : ¬ response.Transform.Cmd.length = 0 := by
    intro h
    exact hcmd (List.length_eq_zero.mp h)
  unfold doShim
  simp only [hd, hs, hc, hm, if_neg hlen]
  rw [heartbeat_all_continue env response podName env.ticks _ hticks]
  unfold heartbeat
  simp only [hrun]
  rw [cmdSuccess_eq_specSuccess]
  obtain ⟨rest, h⟩ := sendFinish_sent env response.ChunkID podName
    (specSuccess response.Transform.AcceptReturnCode r) true
    ([Rpc.StartPod jobID podName] ++
      env.ticks.map (fun _ => Rpc.ContinuePod response.ChunkID podName)) hf
  exact ⟨rest, by rw [h]; simp⟩

/-- Claim C6 on a run whose command exits with the accepted code 2. -/
theorem C6_success_flag_witness :
    (demoEnv.run = some (RunResult.exitError (some 2)) ∧ demoEnv.finish ≠ Outcome.crash) ∧
      ∃ rest, (doShim demoEnv "job" "pod").1 =
        Rpc.StartPod "job" "pod" ::
          (demoEnv.ticks.map (fun _ => Rpc.ContinuePod "chunk" "pod") ++
            Rpc.FinishPod "chunk" "pod" (specSuccess [2] (RunResult.exitError (some 2))) :: rest) :=
  ⟨⟨rfl, by decide⟩,
    (C6_success_flag demoEnv "job" "pod"
      { ChunkID := "chunk",
        Transform := { Cmd := ["true"], Stdin := [], AcceptReturnCode := [2], Debug := false },
        CommitMounts := [] } () () (RunResult.exitError (some 2)) rfl rfl rfl rfl (by decide)
      (by decide) rfl (by decide)).1⟩

/-! ## PutBlock: segmentation -/

theorem blockBytes_append (a b : List (BlockRef × Bytes)) :
    blockBytes (a ++ b) = blockBytes a ++ blockBytes b := by
  simp [blockBytes]

theorem wellRanged_cons (cfg : Config) (off : Nat) (ref : BlockRef) (data : Bytes)
    (rest : List (BlockRef × Bytes)) :
    wellRanged cfg off ((ref, data) :: rest) ↔
      (ref.hash = cfg.hash data ∧ ref.lower = off ∧ ref.upper = off + data.length ∧
        wellRanged cfg (off + data.length) rest) := Iff.rfl

theorem wellRanged_append (cfg : Config) (off : Nat) (a b : List (BlockRef × Bytes)) :
    wellRanged cfg off (a ++ b) ↔
      wellRanged cfg off a ∧ wellRanged cfg (off + (blockBytes a).length) b := by
  induction a generalizing off with
  | nil => simp [wellRanged, blockBytes]
  | cons x xs ih =>
    obtain ⟨ref, data⟩ := x
    have e : off + (blockBytes ((ref, data) :: xs)).length
        = off + data.length + (blockBytes xs).length := by
      simp [blockBytes, Nat.add_assoc]
    rw [e, List.cons_append, wellRanged_cons, wellRanged_cons, ih]
    tauto

theorem lineLength_bounds (rest : Bytes) (h : rest ≠ []) :
    0 < lineLength rest ∧ lineLength rest ≤ rest.length := by
  induction rest with
  | nil => exact absurd rfl h
  | cons b bs ih =>
    unfold lineLength
    by_cases hb : b = 10
    · rw [if_pos hb]
      simp
    · rw [if_neg hb]
      cases bs with
      | nil => simp [lineLength]
      | cons x xs =>
        have := ih (by simp)
        simp only [List.length_cons] at this ⊢
        omega

theorem nextRecord_bounds (cfg : Config) (d : Delimiter) (rest : Bytes) (k : Nat)
    (hne : rest ≠ []) (h : nextRecord cfg d rest = Except.ok k) : 0 < k ∧ k ≤ rest.length := by
  unfold nextRecord at h
  cases d with
  | NONE =>
    simp only [Except.ok.injEq] at h
    subst h
    cases rest with
    | nil => exact absurd rfl hne
    | cons x xs => simp
  | LINE =>
    simp only [Except.ok.injEq] at h
    subst h
    exact lineLength_bounds rest hne
  | JSON =>
    simp only [] at h
    cases hj : cfg.jsonEnd rest with
    | error e => rw [hj] at h; simp at h
    | ok j =>
      rw [hj] at h
      simp only [] at h
      split at h
      · rename_i hb
        simp only [Except.ok.injEq] at h
        subst h
        exact hb
      · simp at h

theorem accumulate_ok (cfg : Config) (d : Delimiter) (fuel : Nat) (buf rest data rest1 : Bytes)
    (hfuel : rest.length ≤ fuel)
    (h : accumulate cfg d fuel buf rest = Except.ok (data, rest1)) :
    data ++ rest1 = buf ++ rest ∧ (cfg.blockSize ≤ data.length ∨ rest1 = []) := by
  induction fuel generalizing buf rest with
  | zero =>
    unfold accumulate at h
    simp only [Except.ok.injEq, Prod.mk.injEq] at h
    obtain ⟨h1, h2⟩ := h
    subst h1
    subst h2
    exact ⟨rfl, Or.inr (List.length_eq_zero.mp (Nat.le_zero.mp hfuel))⟩
  | succ fuel ih =>
    unfold accumulate at h
    split at h
    · rename_i hc
      simp only [Except.ok.injEq, Prod.mk.injEq] at h
      obtain ⟨h1, h2⟩ := h
      subst h1
      subst h2
      exact ⟨rfl, hc⟩
    · rename_i hc
      have hne : rest ≠ [] := fun e => hc (Or.inr e)
      cases hn : nextRecord cfg d rest with
      | error e => rw [hn] at h; simp at h
      | ok k =>
        rw [hn] at h
        simp only [] at h
        obtain ⟨hk1, hk2⟩ := nextRecord_bounds cfg d rest k hne hn
        have hlen : (rest.drop k).length ≤ fuel := by
          rw [List.length_drop]
          omega
        obtain ⟨g1, g2⟩ := ih (buf ++ rest.take k) (rest.drop k) hlen h
        refine ⟨?_, g2⟩
        rw [g1, List.append_assoc, List.take_append_drop]

theorem readBlock_ok (cfg : Config) (d : Delimiter) (r r1 : ReaderState) (ref : BlockRef)
    (data : Bytes) (h : readBlock cfg d r = Except.ok (ref, data, r1)) :
    ref = { hash := cfg.hash data, lower := r.offset, upper := r.offset + data.length } ∧
      data ++ r1.pending = r.pending ∧ r1.offset = r.offset + data.length ∧
      (cfg.blockSize ≤ data.length ∨ r1.pending = []) := by
  unfold readBlock at h
  cases ha : accumulate cfg d r.pending.length [] r.pending with
  | error e => rw [ha] at h; simp at h
  | ok v =>
    obtain ⟨data1, rest⟩ := v
    rw [ha] at h
    simp only [Except.ok.injEq, Prod.mk.injEq] at h
    obtain ⟨h1, h2, h3⟩ := h
    subst h2
    subst h3
    obtain ⟨g1, g2⟩ := accumulate_ok cfg d _ [] r.pending data1 rest (le_refl _) ha
    refine ⟨h1.symm, ?_, rfl, ?_⟩
    · simpa [ReaderState.pending] using g1
    · simpa [ReaderState.pending] using g2

theorem putLoop_zero {σ : Type} (c : Client σ) (cfg : Config) (d : Delimiter) (st : PutState σ) :
    putLoop c cfg d 0 st =
      { result := PutResult.running, blocks := st.blocks, unread := st.reader.pending,
        store := st.store, calls := st.calls } := rfl

theorem putLoop_error {σ : Type} (c : Client σ) (cfg : Config) (d : Delimiter) (fuel : Nat)
    (st : PutState σ) (e : Err) (h : readBlock cfg d st.reader = Except.error e) :
    putLoop c cfg d (fuel + 1) st =
      { result := PutResult.err e, blocks := st.blocks, unread := st.reader.pending,
        store := st.store, calls := st.calls } := by
  rw [putLoop, h]

theorem putLoop_continue {σ : Type} (c : Client σ) (cfg : Config) (d : Delimiter) (fuel : Nat)
    (st : PutState σ) (ref : BlockRef) (data : Bytes) (reader : ReaderState)
    (h : readBlock cfg d st.reader = Except.ok (ref, data, reader))
    (hlong : ¬ ref.upper - ref.lower < cfg.blockSize) :
    putLoop c cfg d (fuel + 1) st = putLoop c cfg d fuel (st.next c cfg ref data reader) := by
  rw [putLoop, h]
  simp only [if_neg hlong, PutState.next]

theorem putLoop_break {σ : Type} (c : Client σ) (cfg : Config) (d : Delimiter) (fuel : Nat)
    (st : PutState σ) (ref : BlockRef) (data : Bytes) (reader : ReaderState)
    (h : readBlock cfg d st.reader = Except.ok (ref, data, reader))
    (hshort : ref.upper - ref.lower < cfg.blockSize) :
    putLoop c cfg d (fuel + 1) st =
      { result :=
          match (st.next c cfg ref data reader).errs with
          | e :: _ => PutResult.err e
          | [] => PutResult.ok ((st.next c cfg ref data reader).blocks.map Prod.fst),
        blocks := (st.next c cfg ref data reader).blocks, unread := reader.pending,
        store := (st.next c cfg ref data reader).store,
        calls := (st.next c cfg ref data reader).calls } := by
  rw [putLoop, h]
  simp only [if_pos hshort, PutState.next]
  split <;> simp_all

theorem putLoop_stream {σ : Type} (c : Client σ) (cfg : Config) (d : Delimiter) (S : Bytes)
    (fuel : Nat) (st : PutState σ) (hS : blockBytes st.blocks ++ st.reader.pending = S)
    (hr : wellRanged cfg 0 st.blocks) (ho : st.reader.offset = (blockBytes st.blocks).length) :
    blockBytes (putLoop c cfg d fuel st).blocks ++ (putLoop c cfg d fuel st).unread = S ∧
      wellRanged cfg 0 (putLoop c cfg d fuel st).blocks ∧
      ∀ refs, (putLoop c cfg d fuel st).result = PutResult.ok refs →
        refs = (putLoop c cfg d fuel st).blocks.map Prod.fst := by
  induction fuel generalizing st with
  | zero =>
    rw [putLoop_zero]
    exact ⟨hS, hr, fun refs h => by simp at h⟩
  | succ fuel ih =>
    cases hrb : readBlock cfg d st.reader with
    | error e =>
      rw [putLoop_error c cfg d fuel st e hrb]
      exact ⟨hS, hr, fun refs h => by simp at h⟩
    | ok v =>
      obtain ⟨ref, data, reader⟩ := v
      obtain ⟨href, hbytes, hoff, _⟩ := readBlock_ok cfg d st.reader reader ref data hrb
      have hS1 : blockBytes (st.next c cfg ref data reader).blocks ++
          (st.next c cfg ref data reader).reader.pending = S := by
        simp only [PutState.next, blockBytes_append]
        rw [← hS, ← hbytes]
        simp [blockBytes]
      have hr1 : wellRanged cfg 0 (st.next c cfg ref data reader).blocks := by
        simp only [PutState.next]
        rw [wellRanged_append]
        refine ⟨hr, ?_⟩
        rw [wellRanged_cons, href]
        simp [wellRanged, ho]
      have ho1 : (st.next c cfg ref data reader).reader.offset =
          (blockBytes (st.next c cfg ref data reader).blocks).length := by
        simp only [PutState.next, blockBytes_append]
        rw [hoff, ho]
        simp [blockBytes]
      by_cases hshort : ref.upper - ref.lower < cfg.blockSize
      · rw [putLoop_break c cfg d fuel st ref data reader hrb hshort]
        refine ⟨hS1, hr1, ?_⟩
        intro refs h
        simp only [] at h
        split at h
        · simp at h
        · simp only [PutResult.ok.injEq] at h
          exact h.symm
      · rw [putLoop_continue c cfg d fuel st ref data reader hrb hshort]
        exact ih _ hS1 hr1 ho1

theorem readBlock_range (cfg : Config) (d : Delimiter) (r r1 : ReaderState) (ref : BlockRef)
    (data : Bytes) (h : readBlock cfg d r = Except.ok (ref, data, r1)) :
    ref.upper - ref.lower = data.length := by
  obtain ⟨href, _, _, _⟩ := readBlock_ok cfg d r r1 ref data h
  rw [href]
  simp

theorem putLoop_terminates {σ : Type} (c : Client σ) (cfg : Config) (d : Delimiter)
    (hbs : 0 < cfg.blockSize) (fuel : Nat) (st : PutState σ)
    (hfuel : st.reader.pending.length < fuel) :
    (putLoop c cfg d fuel st).result ≠ PutResult.running := by
  induction fuel generalizing st with
  | zero => omega
  | succ fuel ih =>
    cases hrb : readBlock cfg d st.reader with
    | error e =>
      rw [putLoop_error c cfg d fuel st e hrb]
      simp
    | ok v =>
      obtain ⟨ref, data, reader⟩ := v
      by_cases hshort : ref.upper - ref.lower < cfg.blockSize
      · rw [putLoop_break c cfg d fuel st ref data reader hrb hshort]
        simp only []
        split <;> simp
      · rw [putLoop_continue c cfg d fuel st ref data reader hrb hshort]
        apply ih
        obtain ⟨_, hbytes, _, _⟩ := readBlock_ok cfg d st.reader reader ref data hrb
        have hlen := congrArg List.length hbytes
        rw [List.length_append] at hlen
        rw [readBlock_range cfg d st.reader reader ref data hrb] at hshort
        simp only [PutState.next]
        omega

theorem putLoop_unread {σ : Type} (c : Client σ) (cfg : Config) (d : Delimiter) (fuel : Nat)
    (st : PutState σ) (refs : List BlockRef)
    (hok : (putLoop c cfg d fuel st).result = PutResult.ok refs) :
    (putLoop c cfg d fuel st).unread = [] := by
  induction fuel generalizing st with
  | zero => rw [putLoop_zero] at hok; simp at hok
  | succ fuel ih =>
    cases hrb : readBlock cfg d st.reader with
    | error e =>
      rw [putLoop_error c cfg d fuel st e hrb] at hok
      simp at hok
    | ok v =>
      obtain ⟨ref, data, reader⟩ := v
      obtain ⟨_, _, _, hend⟩ := readBlock_ok cfg d st.reader reader ref data hrb
      have hrange := readBlock_range cfg d st.reader reader ref data hrb
      by_cases hshort : ref.upper - ref.lower < cfg.blockSize
      · rw [putLoop_break c cfg d fuel st ref data reader hrb hshort]
        simp only []
        rcases hend with h | h
        · omega
        · exact h
      · rw [putLoop_continue c cfg d fuel st ref data reader hrb hshort] at hok ⊢
        exact ih _ hok

theorem putLoop_shape {σ : Type} (c : Client σ) (cfg : Config) (d : Delimiter) (fuel : Nat)
    (st : PutState σ) (hlong : ∀ b ∈ st.blocks, cfg.blockSize ≤ b.2.length)
    (refs : List BlockRef) (hok : (putLoop c cfg d fuel st).result = PutResult.ok refs)
    (init : List (BlockRef × Bytes)) (last : BlockRef × Bytes)
    (hsplit : (putLoop c cfg d fuel st).blocks = init ++ [last]) :
    last.2.length < cfg.blockSize ∧ ∀ b ∈ init, cfg.blockSize ≤ b.2.length := by
  induction fuel generalizing st with
  | zero => rw [putLoop_zero] at hok; simp at hok
  | succ fuel ih =>
    cases hrb : readBlock cfg d st.reader with
    | error e =>
      rw [putLoop_error c cfg d fuel st e hrb] at hok
      simp at hok
    | ok v =>
      obtain ⟨ref, data, reader⟩ := v
      have hrange := readBlock_range cfg d st.reader reader ref data hrb
      by_cases hshort : ref.upper - ref.lower < cfg.blockSize
      · rw [putLoop_break c cfg d fuel st ref data reader hrb hshort] at hsplit
        simp only [PutState.next] at hsplit
        obtain ⟨h1, h2⟩ := List.append_inj' hsplit rfl
        simp only [List.cons.injEq, and_true] at h2
        subst h1
        subst h2
        exact ⟨by simpa [hrange] using hshort, hlong⟩
      · rw [putLoop_continue c cfg d fuel st ref data reader hrb hshort] at hok hsplit
        apply ih (st.next c cfg ref data reader) _ hok hsplit
        intro b hb
        simp only [PutState.next, List.mem_append, List.mem_singleton] at hb
        rcases hb with hb | hb
        · exact hlong b hb
        · subst hb
          simp only []
          omega

theorem wellRanged_last (cfg : Config) (off : Nat) (init : List (BlockRef × Bytes))
    (last : BlockRef × Bytes) (h : wellRanged cfg off (init ++ [last])) :
    last.1.upper = off + (blockBytes (init ++ [last])).length := by
  rw [wellRanged_append] at h
  obtain ⟨ref, data⟩ := last
  have h2 := h.2
  rw [wellRanged_cons] at h2
  rw [h2.2.2.1, blockBytes_append]
  simp [blockBytes, Nat.add_assoc]

/-- Claim C1.  For every stream of frames and every delimiter, with a positive `blockSize`:
`PutBlock` ends, and when it succeeds the response lists the references of the emitted
blocks in order, the bytes of those blocks concatenated in that order are exactly the
stream, and nothing of the stream is left unread: the loop, which stops after the
first segment shorter than `blockSize` (the last block is the only short one), does not
stop while unread bytes remain.  The ranges are contiguous, each reference carrying
the hash of its block, they start at 0 and the last one ends at the length of the
stream. -/
theorem C1_putBlock_roundtrip {σ : Type} (c : Client σ) (cfg : Config) (d : Delimiter)
    (frames : List Bytes) (store : σ) (hbs : 0 < cfg.blockSize) :
    (PutBlock c cfg d frames store).result ≠ PutResult.running ∧
      ∀ refs, (PutBlock c cfg d frames store).result = PutResult.ok refs →
        refs = (PutBlock c cfg d frames store).blocks.map Prod.fst ∧
        blockBytes (PutBlock c cfg d frames store).blocks = frames.flatten ∧
        (PutBlock c cfg d frames store).unread = [] ∧
        wellRanged cfg 0 (PutBlock c cfg d frames store).blocks ∧
        ∀ init last, (PutBlock c cfg d frames store).blocks = init ++ [last] →
          last.1.upper = frames.flatten.length ∧ last.2.length < cfg.blockSize ∧
          ∀ b ∈ init, cfg.blockSize ≤ b.2.length := by
  cases frames with
  | nil =>
    simp only [PutBlock]
    refine ⟨by simp, ?_⟩
    intro refs h
    simp only [PutResult.ok.injEq] at h
    refine ⟨by simp [h], by simp [blockBytes], by simp, trivial, ?_⟩
    intro init last h2
    simp at h2
  | cons f fs =>
    simp only [PutBlock]
    have hp : (PutState.start f fs store).reader.pending = (f :: fs).flatten := by
      simp [PutState.start, ReaderState.pending]
    have hb0 : (PutState.start f fs store).blocks = [] := rfl
    have ho0 : (PutState.start f fs store).reader.offset = 0 := rfl
    have hfuel : (PutState.start f fs store).reader.pending.length
        < (f :: fs).flatten.length + 2 := by
      rw [hp]; omega
    have hstream := putLoop_stream c cfg d (f :: fs).flatten ((f :: fs).flatten.length + 2)
      (PutState.start f fs store)
      (by rw [hb0, hp]; simp [blockBytes]) (by rw [hb0]; trivial)
      (by rw [hb0, ho0]; simp [blockBytes])
    refine ⟨putLoop_terminates c cfg d hbs _ _ hfuel, ?_⟩
    intro refs hok
    have hu := putLoop_unread c cfg d _ _ refs hok
    have hbytes := hstream.1
    rw [hu, List.append_nil] at hbytes
    refine ⟨hstream.2.2 refs hok, hbytes, hu, hstream.2.1, ?_⟩
    intro init last hsplit
    have hshape := putLoop_shape c cfg d _ _ (by rw [hb0]; simp) refs hok init last hsplit
    refine ⟨?_, hshape.1, hshape.2⟩
    have hr := hstream.2.1
    rw [hsplit] at hr
    have hl := wellRanged_last cfg 0 init last hr
    rw [← hsplit, hbytes] at hl
    simpa using hl

/-- Claim C1 on a stream of two frames holding the lines `[1, 10]` and `[3, 4, 5, 6]` (10 is
the newline, the second line has none), with the delimiter `LINE` and blocks of four
bytes: the first block holds both lines, the second block is empty and ends the loop. -/
theorem C1_putBlock_roundtrip_witness :
    (0 < demoConfig.blockSize ∧
      (PutBlock memClient demoConfig Delimiter.LINE [[1, 10, 3, 4], [5, 6]] MemStore.empty).result
        = PutResult.ok [{ hash := demoConfig.hash [1, 10, 3, 4, 5, 6], lower := 0, upper := 6 },
            { hash := demoConfig.hash [], lower := 6, upper := 6 }]) ∧
      blockBytes
          (PutBlock memClient demoConfig Delimiter.LINE [[1, 10, 3, 4], [5, 6]] MemStore.empty).blocks
        = [[1, 10, 3, 4], [5, 6]].flatten :=
  ⟨⟨by decide, rfl⟩,
    ((C1_putBlock_roundtrip memClient demoConfig Delimiter.LINE [[1, 10, 3, 4], [5, 6]]
      MemStore.empty (by decide)).2 _ rfl).2.1⟩

/-! ## PutBlock: idempotence -/

theorem persist_exists {σ : Type} (c : Client σ) (cfg : Config) (hash : String) (data : Bytes)
    (s : σ) (h : c.Exists (blockPath cfg hash) s = true) :
    persist c cfg hash data s =
      { store := s, calls := [Call.Exists (blockPath cfg hash)], retErr := none } := by
  unfold persist
  rw [retryNotify_none _ _ _ ⟨s, [Call.Exists (blockPath cfg hash)], none⟩]
  simp [putAttempt, h]

theorem retryNotify_rel {τ : Type} (R : τ → τ → Prop) (hrefl : ∀ t, R t t)
    (htrans : ∀ a b c, R a b → R b c → R a c) (op : τ → Option Err × τ)
    (hop : ∀ t, R t (op t).2) (n : Nat) (t : τ) :
    R (op t).2 (retryNotify op n t).2 := by
  induction n generalizing t with
  | zero => exact hrefl _
  | succ n ih =>
    rw [retryNotify]
    rcases hr : op t with ⟨r, t1⟩
    cases r with
    | none => exact hrefl _
    | some e =>
      simp only []
      have h1 := ih t1
      exact htrans _ _ _ (hop t1) h1

theorem putLoop_grows {σ : Type} (c : Client σ) (cfg : Config) (d : Delimiter) (fuel : Nat)
    (st : PutState σ) :
    (∀ b ∈ st.blocks, b ∈ (putLoop c cfg d fuel st).blocks) ∧
      (∀ call ∈ st.calls, call ∈ (putLoop c cfg d fuel st).calls) := by
  induction fuel generalizing st with
  | zero => rw [putLoop_zero]; exact ⟨fun b hb => hb, fun b hb => hb⟩
  | succ fuel ih =>
    cases hrb : readBlock cfg d st.reader with
    | error e =>
      rw [putLoop_error c cfg d fuel st e hrb]
      exact ⟨fun b hb => hb, fun b hb => hb⟩
    | ok v =>
      obtain ⟨ref, data, reader⟩ := v
      by_cases hshort : ref.upper - ref.lower < cfg.blockSize
      · rw [putLoop_break c cfg d fuel st ref data reader hrb hshort]
        simp only [PutState.next]
        exact ⟨fun b hb => List.mem_append_left _ hb, fun b hb => List.mem_append_left _ hb⟩
      · rw [putLoop_continue c cfg d fuel st ref data reader hrb hshort]
        have := ih (st.next c cfg ref data reader)
        exact ⟨fun b hb => this.1 b (List.mem_append_left _ hb),
          fun b hb => this.2 b (List.mem_append_left _ hb)⟩

theorem putLoop_repeat {σ τ : Type} (c1 : Client σ) (c2 : Client τ) (cfg : Config)
    (d : Delimiter) (fuel : Nat) (st1 : PutState σ) (st2 : PutState τ)
    (hreader : st1.reader = st2.reader) (hblocks : st1.blocks = st2.blocks)
    (herrs : st2.errs = []) (hcalls : ∀ call ∈ st2.calls, call.isExists = true)
    (refs : List BlockRef) (hok : (putLoop c1 cfg d fuel st1).result = PutResult.ok refs)
    (hex : ∀ b ∈ (putLoop c1 cfg d fuel st1).blocks,
      c2.Exists (blockPath cfg b.1.hash) st2.store = true) :
    (putLoop c2 cfg d fuel st2).result = PutResult.ok refs ∧
      (putLoop c2 cfg d fuel st2).store = st2.store ∧
      (putLoop c2 cfg d fuel st2).blocks = (putLoop c1 cfg d fuel st1).blocks ∧
      ∀ call ∈ (putLoop c2 cfg d fuel st2).calls, call.isExists = true := by
  induction fuel generalizing st1 st2 with
  | zero => rw [putLoop_zero] at hok; simp at hok
  | succ fuel ih =>
    cases hrb : readBlock cfg d st1.reader with
    | error e =>
      rw [putLoop_error c1 cfg d fuel st1 e hrb] at hok
      simp at hok
    | ok v =>
      obtain ⟨ref, data, reader⟩ := v
      have hrb2 : readBlock cfg d st2.reader = Except.ok (ref, data, reader) := by
        rw [← hreader]; exact hrb
      have hmem : (ref, data) ∈ (putLoop c1 cfg d (fuel + 1) st1).blocks := by
        by_cases hshort : ref.upper - ref.lower < cfg.blockSize
        · rw [putLoop_break c1 cfg d fuel st1 ref data reader hrb hshort]
          simp [PutState.next]
        · rw [putLoop_continue c1 cfg d fuel st1 ref data reader hrb hshort]
          exact (putLoop_grows c1 cfg d fuel _).1 _ (by simp [PutState.next])
      have hexists : c2.Exists (blockPath cfg ref.hash) st2.store = true :=
        hex (ref, data) hmem
      have hp := persist_exists c2 cfg ref.hash data st2.store hexists
      have hnext : st2.next c2 cfg ref data reader =
          { reader := reader, blocks := st2.blocks ++ [(ref, data)], store := st2.store,
            calls := st2.calls ++ [Call.Exists (blockPath cfg ref.hash)], errs := [] } := by
        simp [PutState.next, hp, herrs]
      by_cases hshort : ref.upper - ref.lower < cfg.blockSize
      · rw [putLoop_break c1 cfg d fuel st1 ref data reader hrb hshort] at hok
        rw [putLoop_break c1 cfg d fuel st1 ref data reader hrb hshort]
        rw [putLoop_break c2 cfg d fuel st2 ref data reader hrb2 hshort, hnext]
        simp only []
        refine ⟨?_, trivial, ?_, ?_⟩
        · simp only [] at hok
          split at hok
          · simp at hok
          · rw [← hok]
            simp [PutState.next, hblocks]
        · simp [PutState.next, hblocks]
        · intro call hc
          rcases List.mem_append.mp hc with h | h
          · exact hcalls call h
          · simp only [List.mem_singleton] at h
            subst h
            rfl
      · rw [putLoop_continue c1 cfg d fuel st1 ref data reader hrb hshort] at hok hex
        rw [putLoop_continue c1 cfg d fuel st1 ref data reader hrb hshort]
        rw [putLoop_continue c2 cfg d fuel st2 ref data reader hrb2 hshort]
        have := ih (st1.next c1 cfg ref data reader) (st2.next c2 cfg ref data reader)
          (by simp [PutState.next]) (by simp [PutState.next, hblocks])
          (by rw [hnext]) (by
            rw [hnext]
            intro call hc
            rcases List.mem_append.mp hc with h | h
            · exact hcalls call h
            · simp only [List.mem_singleton] at h
              subst h
              rfl) hok (by
            rw [hnext]
            exact hex)
        rw [hnext] at this
        rw [hnext]
        exact this

theorem putAttempt_mem (path : Path) (data : Bytes) (t : Task MemStore) :
    Task.le t (putAttempt memClient path data t).2 ∧
      (memClient.Exists path t.store = true ∨
        Call.Writer path ∈ (putAttempt memClient path data t).2.calls) := by
  unfold putAttempt
  by_cases hex : memClient.Exists path t.store = true
  · rw [if_pos hex]
    exact ⟨⟨⟨[], rfl⟩, ⟨_, rfl⟩⟩, Or.inl hex⟩
  · rw [if_neg hex]
    simp only [memClient]
    cases h1 : t.store.writerFaults with
    | cons e es => exact ⟨⟨⟨[], rfl⟩, ⟨_, rfl⟩⟩, Or.inr (by simp)⟩
    | nil =>
      simp only []
      cases h2 : t.store.writeFaults with
      | cons e es => exact ⟨⟨⟨[], rfl⟩, ⟨_, rfl⟩⟩, Or.inr (by simp)⟩
      | nil =>
        simp only []
        cases h3 : t.store.closeFaults with
        | cons e es =>
          simp only []
          split
          · exact ⟨⟨⟨[], rfl⟩, ⟨_, rfl⟩⟩, Or.inr (by simp)⟩
          · exact ⟨⟨⟨[], rfl⟩, ⟨_, rfl⟩⟩, Or.inr (by simp)⟩
        | nil =>
          simp only []
          exact ⟨⟨⟨[_], rfl⟩, ⟨_, rfl⟩⟩, Or.inr (by simp)⟩

theorem Task.le_refl (a : Task MemStore) : Task.le a a := ⟨⟨[], rfl⟩, ⟨[], by simp⟩⟩

theorem Task.le_trans (a b c : Task MemStore) (h1 : Task.le a b) (h2 : Task.le b c) :
    Task.le a c := by
  obtain ⟨⟨x1, hx1⟩, ⟨m1, hm1⟩⟩ := h1
  obtain ⟨⟨x2, hx2⟩, ⟨m2, hm2⟩⟩ := h2
  exact ⟨⟨x2 ++ x1, by rw [hx2, hx1, List.append_assoc]⟩,
    ⟨m1 ++ m2, by rw [hm2, hm1, List.append_assoc]⟩⟩

theorem lookup_append_isSome (p : Path) (extra objs : List (Path × Bytes))
    (h : (objs.lookup p).isSome = true) : ((extra ++ objs).lookup p).isSome = true := by
  induction extra with
  | nil => exact h
  | cons x xs ih =>
    obtain ⟨q, v⟩ := x
    rw [List.cons_append, List.lookup_cons]
    split
    · rfl
    · exact ih

theorem exists_of_objs_append (p : Path) (s t : MemStore) (extra : List (Path × Bytes))
    (he : t.objs = extra ++ s.objs) (h : memClient.Exists p s = true) :
    memClient.Exists p t = true := by
  simp only [memClient] at h ⊢
  rw [he]
  exact lookup_append_isSome p extra s.objs h

theorem persist_mem (cfg : Config) (hash : String) (data : Bytes) (s : MemStore) :
    (∃ extra, (persist memClient cfg hash data s).store.objs = extra ++ s.objs) ∧
      (memClient.Exists (blockPath cfg hash) s = true ∨
        Call.Writer (blockPath cfg hash) ∈ (persist memClient cfg hash data s).calls) := by
  have h1 := putAttempt_mem (blockPath cfg hash) data ⟨s, [], none⟩
  have h2 := retryNotify_rel Task.le Task.le_refl Task.le_trans
    (putAttempt memClient (blockPath cfg hash) data)
    (fun t => (putAttempt_mem (blockPath cfg hash) data t).1) cfg.retries ⟨s, [], none⟩
  have h3 := Task.le_trans _ _ _ h1.1 h2
  refine ⟨h3.1, ?_⟩
  rcases h1.2 with h | h
  · exact Or.inl h
  · right
    obtain ⟨more, hm⟩ := h2.2
    unfold persist
    rw [hm]
    exact List.mem_append_left _ h

theorem putLoop_mem (cfg : Config) (d : Delimiter) (fuel : Nat) (st : PutState MemStore) :
    (∃ extra, (putLoop memClient cfg d fuel st).store.objs = extra ++ st.store.objs) ∧
      ∀ b ∈ (putLoop memClient cfg d fuel st).blocks,
        b ∈ st.blocks ∨
          memClient.Exists (blockPath cfg b.1.hash) (putLoop memClient cfg d fuel st).store = true ∨
          Call.Writer (blockPath cfg b.1.hash) ∈ (putLoop memClient cfg d fuel st).calls := by
  induction fuel generalizing st with
  | zero => rw [putLoop_zero]; exact ⟨⟨[], rfl⟩, fun b hb => Or.inl hb⟩
  | succ fuel ih =>
    cases hrb : readBlock cfg d st.reader with
    | error e =>
      rw [putLoop_error memClient cfg d fuel st e hrb]
      exact ⟨⟨[], rfl⟩, fun b hb => Or.inl hb⟩
    | ok v =>
      obtain ⟨ref, data, reader⟩ := v
      obtain ⟨⟨x0, hx0⟩, hpw⟩ := persist_mem cfg ref.hash data st.store
      have key : ∀ o : PutOutcome MemStore,
          (∃ extra, o.store.objs = extra ++ (st.next memClient cfg ref data reader).store.objs) →
          (∀ call ∈ (st.next memClient cfg ref data reader).calls, call ∈ o.calls) →
          (∀ b ∈ o.blocks, b ∈ (st.next memClient cfg ref data reader).blocks ∨
            memClient.Exists (blockPath cfg b.1.hash) o.store = true ∨
            Call.Writer (blockPath cfg b.1.hash) ∈ o.calls) →
          (∃ extra, o.store.objs = extra ++ st.store.objs) ∧
            ∀ b ∈ o.blocks, b ∈ st.blocks ∨
              memClient.Exists (blockPath cfg b.1.hash) o.store = true ∨
              Call.Writer (blockPath cfg b.1.hash) ∈ o.calls := by
        intro o ⟨x1, hx1⟩ hcalls hb
        have hobjs : o.store.objs = (x1 ++ x0) ++ st.store.objs := by
          rw [hx1]
          simp only [PutState.next]
          rw [hx0, List.append_assoc]
        refine ⟨⟨_, hobjs⟩, ?_⟩
        intro b hbm
        rcases hb b hbm with h | h
        · simp only [PutState.next, List.mem_append, List.mem_singleton] at h
          rcases h with h | h
          · exact Or.inl h
          · subst h
            right
            rcases hpw with hp | hp
            · exact Or.inl (exists_of_objs_append _ st.store o.store _ hobjs hp)
            · right
              apply hcalls
              simp only [PutState.next]
              exact List.mem_append_right _ hp
        · exact Or.inr h
      by_cases hshort : ref.upper - ref.lower < cfg.blockSize
      · rw [putLoop_break memClient cfg d fuel st ref data reader hrb hshort]
        exact key _ ⟨[], rfl⟩ (fun call hc => hc) (fun b hb => Or.inl hb)
      · rw [putLoop_continue memClient cfg d fuel st ref data reader hrb hshort]
        have := ih (st.next memClient cfg ref data reader)
        exact key _ this.1 (putLoop_grows memClient cfg d fuel _).2 this.2

/-- Claim C4.  Let a first `PutBlock` succeed on the store in memory, and let every path on
which it opened a writer exist afterwards.  Then a second `PutBlock` with the same
input, run on the store the first one left, returns the same `BlockRefs`, makes only
`Exists` calls (it opens no writer and writes nothing), and leaves the store as it is,
because a persistence task that finds `Exists(blockPath(hash))` true returns success
after that one call.  So the second call writes no hash again.  The persistence tasks
are run one after the other. -/
theorem C4_put_idempotent (cfg : Config) (d : Delimiter) (frames : List Bytes) (s0 : MemStore)
    (refs : List BlockRef)
    (hfirst : (PutBlock memClient cfg d frames s0).result = PutResult.ok refs)
    (hexists : ∀ p, Call.Writer p ∈ (PutBlock memClient cfg d frames s0).calls →
      memClient.Exists p (PutBlock memClient cfg d frames s0).store = true) :
    (PutBlock memClient cfg d frames (PutBlock memClient cfg d frames s0).store).result
        = PutResult.ok refs ∧
      (PutBlock memClient cfg d frames (PutBlock memClient cfg d frames s0).store).store
        = (PutBlock memClient cfg d frames s0).store ∧
      (∀ call ∈
          (PutBlock memClient cfg d frames (PutBlock memClient cfg d frames s0).store).calls,
        ∃ p, call = Call.Exists p) ∧
      ∀ (hash : String) (data : Bytes) (s : MemStore),
        memClient.Exists (blockPath cfg hash) s = true →
          (persist memClient cfg hash data s).retErr = none ∧
          (persist memClient cfg hash data s).calls = [Call.Exists (blockPath cfg hash)] ∧
          (persist memClient cfg hash data s).store = s := by
  have hpersist : ∀ (hash : String) (data : Bytes) (s : MemStore),
      memClient.Exists (blockPath cfg hash) s = true →
        (persist memClient cfg hash data s).retErr = none ∧
        (persist memClient cfg hash data s).calls = [Call.Exists (blockPath cfg hash)] ∧
        (persist memClient cfg hash data s).store = s := by
    intro hash data s h
    rw [persist_exists memClient cfg hash data s h]
    exact ⟨rfl, rfl, rfl⟩
  have hform : ∀ call : Call, call.isExists = true → ∃ p, call = Call.Exists p := by
    intro call h
    cases call <;> simp [Call.isExists] at h
    exact ⟨_, rfl⟩
  cases frames with
  | nil =>
    simp only [PutBlock] at hfirst ⊢
    exact ⟨hfirst, trivial, fun call hc => by simp at hc, hpersist⟩
  | cons f fs =>
    simp only [PutBlock] at hfirst hexists ⊢
    have hA := putLoop_mem cfg d ((f :: fs).flatten.length + 2) (PutState.start f fs s0)
    have hB := putLoop_repeat memClient memClient cfg d ((f :: fs).flatten.length + 2)
      (PutState.start f fs s0)
      (PutState.start f fs
        (putLoop memClient cfg d ((f :: fs).flatten.length + 2) (PutState.start f fs s0)).store)
      rfl rfl rfl (fun call hc => by simp [PutState.start] at hc) refs hfirst
      (by
        intro b hb
        rcases hA.2 b hb with h | h | h
        · simp [PutState.start] at h
        · exact h
        · exact hexists _ h)
    exact ⟨hB.1, hB.2.1, fun call hc => hform call (hB.2.2.2 call hc), hpersist⟩

/-- Claim C4 on a stream of five bytes put twice into an empty store. -/
theorem C4_put_idempotent_witness :
    ((PutBlock memClient demoConfig Delimiter.NONE [[1, 2, 3, 4, 5]] MemStore.empty).result
        = PutResult.ok [{ hash := "abaabaaabaaaab", lower := 0, upper := 4 },
            { hash := "aaaaab", lower := 4, upper := 5 }]) ∧
      (PutBlock memClient demoConfig Delimiter.NONE [[1, 2, 3, 4, 5]]
          (PutBlock memClient demoConfig Delimiter.NONE [[1, 2, 3, 4, 5]] MemStore.empty).store).result
        = PutResult.ok [{ hash := "abaabaaabaaaab", lower := 0, upper := 4 },
            { hash := "aaaaab", lower := 4, upper := 5 }] :=
  ⟨rfl, (C4_put_idempotent demoConfig Delimiter.NONE [[1, 2, 3, 4, 5]] MemStore.empty
    [{ hash := "abaabaaabaaaab", lower := 0, upper := 4 },
      { hash := "aaaaab", lower := 4, upper := 5 }] rfl
    (by
      intro p hp
      have hc : (PutBlock memClient demoConfig Delimiter.NONE [[1, 2, 3, 4, 5]]
          MemStore.empty).calls =
          [Call.Exists (blockPath demoConfig "abaabaaabaaaab"),
            Call.Writer (blockPath demoConfig "abaabaaabaaaab"),
            Call.Write (blockPath demoConfig "abaabaaabaaaab") [1, 2, 3, 4],
            Call.Close (blockPath demoConfig "abaabaaabaaaab"),
            Call.Exists (blockPath demoConfig "aaaaab"),
            Call.Writer (blockPath demoConfig "aaaaab"),
            Call.Write (blockPath demoConfig "aaaaab") [5],
            Call.Close (blockPath demoConfig "aaaaab")] := rfl
      rw [hc] at hp
      simp only [List.mem_cons, Call.Writer.injEq, List.mem_singleton, reduceCtorEq,
        false_or, or_false, List.not_mem_nil] at hp
      rcases hp with h | h <;> subst h <;> rfl)).1⟩

/-! ## PutBlock then GetBlock -/

theorem blockPath_inj (cfg : Config) (h1 h2 : String) (h : blockPath cfg h1 = blockPath cfg h2) :
    h1 = h2 := by
  simp [blockPath] at h
  exact h.2

theorem retryNotify_inv {τ : Type} (P : τ → Prop) (op : τ → Option Err × τ)
    (hop : ∀ t, P t → P (op t).2) (n : Nat) (t : τ) (h : P t) : P (retryNotify op n t).2 := by
  induction n generalizing t with
  | zero => exact hop t h
  | succ n ih =>
    rw [retryNotify]
    have h1 := hop t h
    rcases hr : op t with ⟨r, t1⟩
    rw [hr] at h1
    cases r with
    | none => exact h1
    | some e => exact ih t1 h1

theorem persist_paths {σ : Type} (c : Client σ) (cfg : Config) (hash : String) (data : Bytes)
    (s : σ) : ∀ call ∈ (persist c cfg hash data s).calls, call.path = blockPath cfg hash := by
  unfold persist
  apply retryNotify_inv (fun t : Task σ => ∀ call ∈ t.calls, call.path = blockPath cfg hash)
  · intro t ht
    unfold putAttempt
    split
    · intro call hc
      rcases List.mem_append.mp hc with h | h
      · exact ht call h
      · simp at h; subst h; rfl
    · split
      · intro call hc
        rcases List.mem_append.mp hc with h | h
        · exact ht call h
        · simp at h; rcases h with h | h <;> subst h <;> rfl
      · split
        · intro call hc
          rcases List.mem_append.mp hc with h | h
          · exact ht call h
          · simp at h; rcases h with h | h | h <;> subst h <;> rfl
        · split
          · split
            · intro call hc
              rcases List.mem_append.mp hc with h | h
              · exact ht call h
              · simp at h; rcases h with h | h | h | h <;> subst h <;> rfl
            · intro call hc
              rcases List.mem_append.mp hc with h | h
              · exact ht call h
              · simp at h; rcases h with h | h | h | h <;> subst h <;> rfl
          · intro call hc
            rcases List.mem_append.mp hc with h | h
            · exact ht call h
            · simp at h; rcases h with h | h | h | h <;> subst h <;> rfl
  · intro call hc
    simp at hc

theorem delete_paths {σ : Type} (c : Client σ) (cfg : Config) (hash : String) (s : σ) :
    ∀ call ∈ (DeleteBlock c cfg hash s).calls, call.path = blockPath cfg hash := by
  unfold DeleteBlock
  simp only []
  apply retryNotify_inv (fun t : σ × List Call => ∀ call ∈ t.2, call.path = blockPath cfg hash)
  · intro t ht
    unfold deleteAttempt
    split
    · split
      all_goals
        intro call hc
        rcases List.mem_append.mp hc with h | h
        · exact ht call h
        · simp at h; subst h; rfl
    · intro call hc
      rcases List.mem_append.mp hc with h | h
      · exact ht call h
      · simp at h; subst h; rfl
  · intro call hc
    simp at hc

theorem getter_paths {σ : Type} (c : Client σ) (cfg : Config) (key : String) (s : σ) :
    ∀ call ∈ (getter c cfg key s).2.2, call.path = blockPath cfg key := by
  have hr : ∀ call ∈ (retryNotify (readerAttempt c (blockPath cfg key)) cfg.retries
      { store := s, calls := [], err := none }).2.calls, call.path = blockPath cfg key := by
    apply retryNotify_inv (fun t : Fill σ => ∀ call ∈ t.calls, call.path = blockPath cfg key)
    · intro t ht
      unfold readerAttempt
      split
      · split
        all_goals
          intro call hc
          rcases List.mem_append.mp hc with h | h
          · exact ht call h
          · simp at h; subst h; rfl
      · intro call hc
        rcases List.mem_append.mp hc with h | h
        · exact ht call h
        · simp at h; subst h; rfl
    · intro call hc
      simp at hc
  unfold getter
  simp only []
  split
  · exact hr
  · split
    · intro call hc
      rcases List.mem_append.mp hc with h | h
      · exact hr call h
      · simp at h; rcases h with h | h <;> subst h <;> rfl
    · split
      all_goals
        intro call hc
        rcases List.mem_append.mp hc with h | h
        · exact hr call h
        · simp at h; rcases h with h | h <;> subst h <;> rfl

theorem persist_faultFree (cfg : Config) (hash : String) (data : Bytes) (s : MemStore)
    (hff : s.faultFree) :
    (persist memClient cfg hash data s).retErr = none ∧
      (persist memClient cfg hash data s).store.faultFree ∧
      memClient.Exists (blockPath cfg hash) (persist memClient cfg hash data s).store = true ∧
      ((persist memClient cfg hash data s).store.objs = s.objs ∨
        (persist memClient cfg hash data s).store.objs = (blockPath cfg hash, data) :: s.objs) := by
  obtain ⟨h1, h2, h3, h4, h5⟩ := hff
  by_cases hex : memClient.Exists (blockPath cfg hash) s = true
  · rw [persist_exists memClient cfg hash data s hex]
    exact ⟨rfl, ⟨h1, h2, h3, h4, h5⟩, hex, Or.inl rfl⟩
  · have hop : putAttempt memClient (blockPath cfg hash) data ⟨s, [], none⟩ =
        (none, ⟨{ s with
            pending := (blockPath cfg hash, data) :: (blockPath cfg hash, []) :: s.pending,
            objs := (blockPath cfg hash, data) :: s.objs },
          [Call.Exists (blockPath cfg hash), Call.Writer (blockPath cfg hash),
            Call.Write (blockPath cfg hash) data, Call.Close (blockPath cfg hash)], none⟩) := by
      unfold putAttempt
      rw [if_neg hex]
      simp [memClient, h1, h2, h3, List.lookup]
    unfold persist
    rw [retryNotify_none _ _ _ _ hop]
    refine ⟨rfl, ⟨h1, h2, h3, h4, h5⟩, ?_, Or.inr rfl⟩
    simp [memClient, List.lookup]

theorem addressed_cons (cfg : Config) (s : MemStore) (data : Bytes) (objs : List (Path × Bytes))
    (hs : s.addressed cfg) (ho : objs = s.objs ∨ objs = (blockPath cfg (cfg.hash data), data) :: s.objs) :
    ∀ hash block, objs.lookup (blockPath cfg hash) = some block → cfg.hash block = hash := by
  intro hash block hl
  rcases ho with ho | ho
  · rw [ho] at hl; exact hs hash block hl
  · rw [ho, List.lookup_cons] at hl
    by_cases hp : blockPath cfg hash = blockPath cfg (cfg.hash data)
    · have hb : (blockPath cfg hash == blockPath cfg (cfg.hash data)) = true := by
        rw [hp]; simp
      rw [hb] at hl
      simp only [Option.some.injEq] at hl
      rw [← hl]
      exact (blockPath_inj cfg _ _ hp).symm
    · have hb : (blockPath cfg hash == blockPath cfg (cfg.hash data)) = false := by
        simpa using hp
      rw [hb] at hl
      exact hs hash block hl

theorem sound_next (cfg : Config) (d : Delimiter) (st : PutState MemStore) (ref : BlockRef)
    (data : Bytes) (reader : ReaderState)
    (hrb : readBlock cfg d st.reader = Except.ok (ref, data, reader))
    (h : PutState.sound cfg st.blocks st.store) :
    PutState.sound cfg (st.next memClient cfg ref data reader).blocks
      (st.next memClient cfg ref data reader).store := by
  obtain ⟨hff, hadd, hbl⟩ := h
  obtain ⟨href, _, _, _⟩ := readBlock_ok cfg d st.reader reader ref data hrb
  have hhash : ref.hash = cfg.hash data := by rw [href]
  obtain ⟨_, p2, p3, p4⟩ := persist_faultFree cfg ref.hash data st.store hff
  simp only [PutState.next]
  refine ⟨p2, ?_, ?_⟩
  · intro hash block hl
    rw [hhash] at p4 hl
    exact addressed_cons cfg st.store data _ hadd p4 hash block hl
  · intro b hb
    rcases List.mem_append.mp hb with hb | hb
    · refine ⟨(hbl b hb).1, ?_⟩
      rcases p4 with p4 | p4
      · exact exists_of_objs_append _ st.store _ [] (by simpa using p4) (hbl b hb).2
      · exact exists_of_objs_append _ st.store _ [_] (by simpa using p4) (hbl b hb).2
    · simp only [List.mem_singleton] at hb
      subst hb
      exact ⟨hhash, p3⟩

theorem putLoop_sound (cfg : Config) (d : Delimiter) (fuel : Nat) (st : PutState MemStore)
    (h : PutState.sound cfg st.blocks st.store) :
    PutState.sound cfg (putLoop memClient cfg d fuel st).blocks
      (putLoop memClient cfg d fuel st).store := by
  induction fuel generalizing st with
  | zero => rw [putLoop_zero]; exact h
  | succ fuel ih =>
    cases hrb : readBlock cfg d st.reader with
    | error e =>
      rw [putLoop_error memClient cfg d fuel st e hrb]
      exact h
    | ok v =>
      obtain ⟨ref, data, reader⟩ := v
      have hn := sound_next cfg d st ref data reader hrb h
      by_cases hshort : ref.upper - ref.lower < cfg.blockSize
      · rw [putLoop_break memClient cfg d fuel st ref data reader hrb hshort]
        exact hn
      · rw [putLoop_continue memClient cfg d fuel st ref data reader hrb hshort]
        exact ih _ hn

theorem getter_faultFree (cfg : Config) (key : String) (s : MemStore) (data : Bytes)
    (hff : s.faultFree) (hl : s.objs.lookup (blockPath cfg key) = some data) :
    getter memClient cfg key s =
      (Except.ok data, s, [Call.Reader (blockPath cfg key), Call.ReadAll (blockPath cfg key),
        Call.CloseReader (blockPath cfg key)]) := by
  obtain ⟨h1, h2, h3, h4, h5⟩ := hff
  have hop : readerAttempt memClient (blockPath cfg key) ⟨s, [], none⟩ =
      (none, ⟨s, [Call.Reader (blockPath cfg key)], none⟩) := by
    simp [readerAttempt, memClient, h4, hl]
  unfold getter
  simp only []
  rw [retryNotify_none _ _ _ _ hop]
  simp [memClient, hl]

theorem sliceBlock_zero (data : Bytes) : sliceBlock data 0 0 = some data := by
  rw [sliceBlock_eq_specSlice data 0 0 (by unfold u64; norm_num), specSlice_zero]

theorem getBlock_faultFree (cfg : Config) (key : String) (cache : Cache) (s : MemStore)
    (data : Bytes) (hinj : Function.Injective cfg.hash) (hkey : key = cfg.hash data)
    (hcache : cacheAddressed cfg cache) (hff : s.faultFree)
    (hl : s.objs.lookup (blockPath cfg key) = some data) :
    (GetBlock memClient cfg key 0 0 cache s).result = GetResult.sent [data] := by
  unfold GetBlock cacheGet
  cases hc : cache.lookup key with
  | some block =>
    have hb : block = data := hinj (by rw [hcache key block hc, hkey])
    subst hb
    simp [sliceBlock_zero]
  | none =>
    simp only []
    rw [getter_faultFree cfg key s data hff hl]
    simp [sliceBlock_zero]

/-- Put then Get on a store that serves every call.  On the store in memory, without
faults, content-addressed and with a collision-free hash: after a successful `PutBlock`,
`GetBlock` with the hash of any listed `BlockRef`, offset 0 and size 0 sends exactly the
bytes of the segment that was hashed to produce that reference, whether the cache holds
the block or fills it from the store.  Every call that the persistence task of
`PutBlock`, the cache getter and `DeleteBlock` make for a hash addresses
`blockPath(hash)`. -/
theorem put_get_roundtrip (cfg : Config) (d : Delimiter) (frames : List Bytes)
    (s0 : MemStore) (cache : Cache) (refs : List BlockRef)
    (hinj : Function.Injective cfg.hash) (hff : s0.faultFree) (hs0 : s0.addressed cfg)
    (hcache : cacheAddressed cfg cache)
    (hput : (PutBlock memClient cfg d frames s0).result = PutResult.ok refs) :
    (∀ ref ∈ refs, ∃ data, (ref, data) ∈ (PutBlock memClient cfg d frames s0).blocks ∧
        ref.hash = cfg.hash data ∧
        (GetBlock memClient cfg ref.hash 0 0 cache
          (PutBlock memClient cfg d frames s0).store).result = GetResult.sent [data]) ∧
      ∀ (hash : String) (data : Bytes) (s : MemStore),
        (∀ call ∈ (persist memClient cfg hash data s).calls, call.path = blockPath cfg hash) ∧
        (∀ call ∈ (getter memClient cfg hash s).2.2, call.path = blockPath cfg hash) ∧
        (∀ call ∈ (DeleteBlock memClient cfg hash s).calls, call.path = blockPath cfg hash) := by
  refine ⟨?_, fun hash data s => ⟨persist_paths memClient cfg hash data s,
    getter_paths memClient cfg hash s, delete_paths memClient cfg hash s⟩⟩
  cases frames with
  | nil =>
    simp only [PutBlock, PutResult.ok.injEq] at hput
    subst hput
    intro ref href
    simp at href
  | cons f fs =>
    simp only [PutBlock] at hput ⊢
    have hstream := putLoop_stream memClient cfg d (f :: fs).flatten
      ((f :: fs).flatten.length + 2) (PutState.start f fs s0)
      (by simp [PutState.start, blockBytes, ReaderState.pending]) trivial
      (by simp [PutState.start, blockBytes])
    have hrefs := hstream.2.2 refs hput
    have hsound := putLoop_sound cfg d ((f :: fs).flatten.length + 2) (PutState.start f fs s0)
      ⟨hff, hs0, fun b hb => by simp [PutState.start] at hb⟩
    obtain ⟨hff1, hadd1, hbl1⟩ := hsound
    intro ref href
    rw [hrefs] at href
    obtain ⟨b, hb, hbref⟩ := List.mem_map.mp href
    obtain ⟨ref1, data⟩ := b
    simp only [] at hbref
    subst hbref
    obtain ⟨hhash, hex⟩ := hbl1 (ref1, data) hb
    simp only [] at hhash hex
    refine ⟨data, hb, hhash, ?_⟩
    simp only [memClient] at hex
    obtain ⟨block, hblock⟩ := Option.isSome_iff_exists.mp hex
    have hbd : block = data := hinj (by rw [hadd1 ref1.hash block hblock, hhash])
    subst hbd
    exact getBlock_faultFree cfg ref1.hash cache _ block hinj hhash hcache hff1 hblock

theorem unary_cons (n : Nat) (ns : Bytes) :
    unary (n :: ns) = List.replicate n 'a' ++ 'b' :: unary ns := by
  simp [unary]

theorem unary_head_inj (n m : Nat) (x y : List Char)
    (h : List.replicate n 'a' ++ 'b' :: x = List.replicate m 'a' ++ 'b' :: y) :
    n = m ∧ x = y := by
  induction n generalizing m with
  | zero =>
    cases m with
    | zero => simpa using h
    | succ m => simp [List.replicate_succ] at h
  | succ n ih =>
    cases m with
    | zero => simp [List.replicate_succ] at h
    | succ m =>
      simp only [List.replicate_succ, List.cons_append, List.cons.injEq, true_and] at h
      obtain ⟨h1, h2⟩ := ih m h
      exact ⟨by rw [h1], h2⟩

theorem unary_injective : Function.Injective unary := by
  intro a
  induction a with
  | nil =>
    intro b h
    cases b with
    | nil => rfl
    | cons m ms =>
      rw [unary_cons] at h
      have := congrArg List.length h
      simp [unary] at this
      omega
  | cons n ns ih =>
    intro b h
    cases b with
    | nil =>
      rw [unary_cons] at h
      have := congrArg List.length h
      simp [unary] at this
    | cons m ms =>
      rw [unary_cons, unary_cons] at h
      obtain ⟨h1, h2⟩ := unary_head_inj n m _ _ h
      rw [h1, ih h2]

theorem demoConfig_hash_injective : Function.Injective demoConfig.hash := by
  intro a b h
  have h2 : unary a = unary b := by
    have := congrArg String.data h
    exact this
  exact unary_injective h2

theorem empty_addressed (cfg : Config) : MemStore.empty.addressed cfg := by
  intro hash block h
  simp [MemStore.empty] at h

/-- Five bytes put into an empty store and read back. -/
theorem put_get_roundtrip_sample :
    ((PutBlock memClient demoConfig Delimiter.NONE [[1, 2, 3, 4, 5]] MemStore.empty).result
        = PutResult.ok [{ hash := "abaabaaabaaaab", lower := 0, upper := 4 },
            { hash := "aaaaab", lower := 4, upper := 5 }]) ∧
      ∀ ref ∈ [({ hash := "abaabaaabaaaab", lower := 0, upper := 4 } : BlockRef),
            { hash := "aaaaab", lower := 4, upper := 5 }],
        ∃ data,
          (ref, data) ∈
            (PutBlock memClient demoConfig Delimiter.NONE [[1, 2, 3, 4, 5]] MemStore.empty).blocks ∧
          ref.hash = demoConfig.hash data ∧
          (GetBlock memClient demoConfig ref.hash 0 0 []
            (PutBlock memClient demoConfig Delimiter.NONE [[1, 2, 3, 4, 5]]
              MemStore.empty).store).result = GetResult.sent [data] :=
  ⟨rfl, (put_get_roundtrip demoConfig Delimiter.NONE [[1, 2, 3, 4, 5]] MemStore.empty []
    [{ hash := "abaabaaabaaaab", lower := 0, upper := 4 },
      { hash := "aaaaab", lower := 4, upper := 5 }]
    demoConfig_hash_injective ⟨rfl, rfl, rfl, rfl, rfl⟩ (empty_addressed demoConfig)
    (fun key block h => by simp at h) rfl).1⟩

/-- Claim C2, the code at a failing input.  Closing the writer fails with a retryable error
on each of the three attempts that the back-off allows.  `PutBlock` returns
successfully and lists the block; the block was never stored, so the `GetBlock` that
follows with that hash, offset 0 and size 0 fills the cache from `blockPath(hash)`,
finds nothing there and returns the error instead of the bytes `[1, 2, 3]`. -/
theorem C2_get_after_lost_write :
    (PutBlock memClient demoConfig Delimiter.NONE [[1, 2, 3]]
        { MemStore.empty with closeFaults := ["transient", "transient", "transient"] }).result
      = PutResult.ok [{ hash := demoConfig.hash [1, 2, 3], lower := 0, upper := 3 }] ∧
    (GetBlock memClient demoConfig (demoConfig.hash [1, 2, 3]) 0 0 []
        (PutBlock memClient demoConfig Delimiter.NONE [[1, 2, 3]]
          { MemStore.empty with
            closeFaults := ["transient", "transient", "transient"] }).store).result
      = GetResult.err "not exist" ∧
    (GetBlock memClient demoConfig (demoConfig.hash [1, 2, 3]) 0 0 []
        (PutBlock memClient demoConfig Delimiter.NONE [[1, 2, 3]]
          { MemStore.empty with
            closeFaults := ["transient", "transient", "transient"] }).store).calls
      = [Call.Reader (blockPath demoConfig (demoConfig.hash [1, 2, 3]))] := by
  refine ⟨by rfl, by rfl, by rfl⟩

/-! ## GetBlock: slice bounds -/

/-- When the slicing of `GetBlock` panics: exactly when `size` is not zero, the sum
`offset + size` leaves the unsigned 64-bit range, and the wrapped sum is below the
length of the block. -/
theorem sliceBlock_none_iff (data : Bytes) (offset size : Nat) (ho : offset < u64)
    (hs : size < u64) :
    sliceBlock data offset size = none ↔
      (size ≠ 0 ∧ u64 ≤ offset + size ∧ (offset + size) % u64 < data.length) := by
  unfold sliceBlock
  by_cases hc : size ≠ 0 ∧ (size + offset) % u64 < data.length
  · rw [if_pos hc]
    obtain ⟨hn, hlt⟩ := hc
    rw [Nat.add_comm size offset] at hlt
    unfold goSlice
    by_cases hw : u64 ≤ offset + size
    · have hmod : (offset + size) % u64 = offset + size - u64 := by
        rw [Nat.mod_eq_sub_mod hw, Nat.mod_eq_of_lt (by omega)]
      have hbad : ¬ (offset ≤ (offset + size) % u64 ∧ (offset + size) % u64 ≤ data.length) := by
        rw [hmod]
        intro h
        omega
      rw [if_neg hbad]
      exact ⟨fun _ => ⟨hn, hw, hlt⟩, fun _ => rfl⟩
    · have hmod : (offset + size) % u64 = offset + size := Nat.mod_eq_of_lt (by omega)
      have hgood : offset ≤ (offset + size) % u64 ∧ (offset + size) % u64 ≤ data.length := by
        rw [hmod] at hlt ⊢
        omega
      rw [if_pos hgood]
      constructor
      · intro h; simp at h
      · intro h; exact absurd h.2.1 hw
  · rw [if_neg hc]
    constructor
    · intro h
      by_cases hlt : offset < data.length
      · rw [if_pos hlt, goSlice_tail data offset (Nat.le_of_lt hlt)] at h
        simp at h
      · rw [if_neg hlt] at h
        simp at h
    · intro h
      exact absurd ⟨h.1, by rw [Nat.add_comm]; exact h.2.2⟩ hc

/-- Claim C11, the code at a failing input.  The request has `offset = 2^64 - 1` and
`size = 2` on a block of five bytes.  The sum wraps to 1, which is below the length,
so the first branch slices `data[2^64 - 1 : 1]`: the low bound is above the high bound,
the slice expression panics, and no frame is sent. -/
theorem C11_getBlock_wrapped_slice_panics :
    (2 ^ 64 - 1 < u64 ∧ 2 < u64 ∧ (2 + (2 ^ 64 - 1)) % u64 = 1) ∧
      sliceBlock [1, 2, 3, 4, 5] (2 ^ 64 - 1) 2 = none ∧
      (GetBlock memClient demoConfig "k" (2 ^ 64 - 1) 2 [("k", [1, 2, 3, 4, 5])]
        MemStore.empty).result = GetResult.panicked := by
  refine ⟨⟨by decide, by decide, by decide⟩, by decide, by decide⟩

end Pachyderm
